import Mathlib

/-!
Verification development for the two chunking pipelines of this repository:
`scripts/chunk_text.py` (character-window chunking with newline-aware
boundary snapping) and `scripts/split_code_treesitter.py` (syntax-aware
chunking of parsed source trees).

The Python sources are shallowly embedded below.  Text is modelled as
`List Char` (Python `str`), byte buffers as `List Nat`, machine integers as
`Nat`/`Int`.  File-system side effects are modelled as an explicit ordered
trace of events; fallible code returns `Except`.  The unbounded `while`
loop of `_iter_chunk_spans` is modelled with explicit fuel (the loop can in
fact fail to terminate, which the development proves).
-/

namespace ChunkText

/-- Python slice `text[s:e]` (clamping semantics of Python slicing). -/
def slice (text : List Char) (s e : Nat) : List Char :=
  (text.drop s).take (e - s)

/-- Byte-buffer slice `data[s:e]`. -/
def sliceBytes (data : List Nat) (s e : Nat) : List Nat :=
  (data.drop s).take (e - s)

/-- Zero padding of a decimal string to width `w`, as in Python
`f"{i:0{width}d}"` for a nonnegative integer rendered as `s`. -/
def zeroPad (s : String) (w : Nat) : String :=
  String.mk (List.replicate (w - s.length) '0') ++ s

/-- Embeds `_compute_newline_positions` (chunk_text.py line 33): the 0-based
offsets of every newline character of the text, in increasing order (the
source computes them with `re.finditer`, which scans left to right). -/
def computeNewlinePositions (text : List Char) : List Nat :=
  (List.range text.length).filter (fun i => text.getD i ' ' = '\n')

/-- Embeds `_line_number_at` (chunk_text.py line 38): 1-based line number of
offset `pos`.  The source computes `bisect.bisect_right(newlines, pos - 1) + 1`
after clamping `pos` to be nonnegative; on the sorted newline-position list
produced by `computeNewlinePositions`, `bisect_right` with key `pos - 1`
returns the number of entries `< pos`, which is what is embedded here
(`pos : Nat`, so the clamp is implicit). -/
def lineNumberAt (newlines : List Nat) (pos : Nat) : Nat :=
  newlines.countP (fun a => a < pos) + 1

/-- Embeds Python `text.rfind("\n", start, stop)` (used at chunk_text.py
line 68): the largest index `j` with `start ≤ j < min stop (len text)` and
`text[j] = '\n'`, scanning downward; `none` stands for Python's `-1`.
Recursion is structural on `stop`. -/
def rfindNewline (text : List Char) (start : Nat) : Nat → Option Nat
  | 0 => none
  | stop + 1 =>
    if stop < start then none
    else if stop < text.length ∧ text.getD stop ' ' = '\n' then some stop
    else rfindNewline text start stop

/-- Mantissa of the IEEE-754 binary64 value of the literal `0.6`:
`0.6` rounds to `5404319552844595 / 2 ^ 53`. -/
def mant06 : Nat := 5404319552844595

/-- Number of halvings needed to bring `t` strictly below `2 ^ 53`, with a
structural fuel bound (1100 covers every finite binary64 value, whose
numerator here never exceeds `2 ^ (1024 + 53)`). -/
def shiftAmount (t : Nat) : Nat → Nat
  | 0 => 0
  | fuel + 1 =>
    if t < 2 ^ 53 then 0 else shiftAmount (t / 2) fuel + 1

/-- Round the integer `t` to 53 significant bits, ties to even: the binary64
rounding step.  For `t < 2 ^ 53` the value is exact. -/
def round53 (t : Nat) : Nat :=
  if t < 2 ^ 53 then t
  else
    let s := shiftAmount t 1100
    let q := t / 2 ^ s
    let r := t % 2 ^ s
    let h := 2 ^ (s - 1)
    (if h < r ∨ (r = h ∧ q % 2 = 1) then q + 1 else q) * 2 ^ s

/-- Exact binary64 semantics of the Python expression `int(n * 0.6)` for a
nonnegative integer `n` (chunk_text.py line 67 with the default
`min_ratio = 0.6`): `float(n)` rounds `n` to 53 bits, the product with the
double `0.6 = mant06 / 2 ^ 53` is rounded to 53 bits, and `int` truncates.
The model is exact for every `n` below the binary64 overflow threshold
`2 ^ 1024` (Python raises `OverflowError` beyond, which is not modelled). -/
def floatMul06 (n : Nat) : Nat :=
  round53 (round53 n * mant06) / 2 ^ 53

/-- Embeds `_choose_chunk_end` (chunk_text.py lines 58-72), specialised to
the only ratio it is ever called with (the default `min_ratio = 0.6`):
pick a chunk end close to `hardEnd`, preferring a newline boundary unless
the resulting chunk would be too small. -/
def chooseChunkEnd (text : List Char) (start hardEnd : Nat) : Nat :=
  if text.length ≤ hardEnd then text.length
  else
    let minEnd := start + floatMul06 (hardEnd - start)
    match rfindNewline text start hardEnd with
    | some nl => if minEnd ≤ nl then nl + 1 else hardEnd
    | none => hardEnd

/-- The loop body of `_iter_chunk_spans` (chunk_text.py lines 83-97) with
explicit fuel; `none` means the fuel ran out (the Python loop does not
always terminate).  The validation of `max_chars`/`overlap_chars` performed
at lines 76-81 lives in `chunkTextRun` below, where the exception surfaces. -/
def iterChunkSpansAux (text : List Char) (maxChars overlapChars : Nat) :
    Nat → Nat → Option (List (Nat × Nat))
  | 0, _ => none
  | fuel + 1, start =>
    if text.length ≤ start then some []
    else
      let hardEnd := min (start + maxChars) text.length
      let e := chooseChunkEnd text start hardEnd
      let e2 := if e ≤ start then hardEnd else e
      if e2 ≤ start then some []
      else if text.length ≤ e2 then some [(start, e2)]
      else
        match iterChunkSpansAux text maxChars overlapChars fuel (e2 - overlapChars) with
        | none => none
        | some rest => some ((start, e2) :: rest)

/-- The chunk record of chunk_text.py (dataclass `Chunk`, lines 22-30). -/
structure Chunk where
  chunk_id : String
  path : String
  start_char : Nat
  end_char : Nat
  start_line : Nat
  end_line : Nat
  sha256 : String
  deriving Repr, DecidableEq

/-- File-system side effects of both pipelines as an ordered event trace:
reading the source, creating directories, removing a prior artifact
(`Path.unlink`), writing one chunk file (with the exact bytes persisted),
and writing a manifest (`index.json`). -/
inductive FsEvent where
  | readSource
  | mkdirOut
  | mkdirChunkDir
  | removePrior (name : String)
  | writeChunkFile (name : String) (content : List Nat)
  | writeIndex
  deriving Repr, DecidableEq

/-- The exceptions the pipelines raise (chunk_text.py lines 76-81 and
112-116, split_code_treesitter.py lines 222-226), plus `fuelExhausted`,
the embedding's marker for a run of `_iter_chunk_spans` that has not
terminated within the supplied fuel. -/
inductive ChunkErr where
  | existingChunks
  | badMaxChars
  | negOverlap
  | overlapTooBig
  | priorChunks
  | fuelExhausted
  deriving Repr, DecidableEq

/-- The per-span emission loop of `chunk_text` (chunk_text.py lines
121-145): for the `i`-th span (1-based) build the id `chunk_XXXX`, slice the
text, hash the UTF-8 encoding of the slice and write exactly those bytes to
`<id>.txt`.  `enc` stands for Python `str.encode("utf-8", errors="replace")`
and `hashFn` for `hashlib.sha256(...).hexdigest()`, both external
collaborators; the source applies `hashFn` to `enc` of the slice (line 126)
and persists `enc` of the same slice via `write_text` (line 133). -/
def emitChunks (enc : List Char → List Nat) (hashFn : List Nat → String)
    (text : List Char) (newlines : List Nat) (width : Nat) :
    Nat → List (Nat × Nat) → List Chunk
  | _, [] => []
  | i, (s, e) :: rest =>
    let cid := "chunk_" ++ zeroPad (Nat.repr i) width
    let bytes := enc (slice text s e)
    { chunk_id := cid
      path := cid ++ ".txt"
      start_char := s
      end_char := e
      start_line := lineNumberAt newlines s
      end_line := lineNumberAt newlines (max s (e - 1))
      sha256 := hashFn bytes } ::
      emitChunks enc hashFn text newlines width (i + 1) rest

/-- The write events produced by the same loop, in emission order: the
bytes persisted to `<id>.txt` are exactly the bytes that were hashed. -/
def emitChunkEvents (enc : List Char → List Nat) (text : List Char) (width : Nat) :
    Nat → List (Nat × Nat) → List FsEvent
  | _, [] => []
  | i, (s, e) :: rest =>
    let cid := "chunk_" ++ zeroPad (Nat.repr i) width
    FsEvent.writeChunkFile (cid ++ ".txt") (enc (slice text s e)) ::
      emitChunkEvents enc text width (i + 1) rest

/-- Embeds `chunk_text` (chunk_text.py lines 100-155) as a trace of
file-system events together with its outcome.  The inputs map to the source
as follows: `text` is the decoded source text (decoding is external I/O),
`wouldOverwrite` is the value of `_would_overwrite_existing_chunks out_dir`
(a file-system probe), `maxChars`/`overlapChars` are the Python `int`
parameters, and `fuel` bounds the span loop.  The trace order is that of
the source: read the source bytes, `_safe_mkdir(out_dir)`, then the
overwrite check, then validation inside `_iter_chunk_spans`, then one write
per chunk, then the `index.json` write. -/
def chunkTextRun (enc : List Char → List Nat) (hashFn : List Nat → String)
    (text : List Char) (wouldOverwrite : Bool) (maxChars overlapChars : Int)
    (force : Bool) (fuel : Nat) : List FsEvent × Except ChunkErr (List Chunk) :=
  let ev0 := [FsEvent.readSource, FsEvent.mkdirOut]
  if wouldOverwrite ∧ ¬force then (ev0, .error .existingChunks)
  else if maxChars ≤ 0 then (ev0, .error .badMaxChars)
  else if overlapChars < 0 then (ev0, .error .negOverlap)
  else if maxChars ≤ overlapChars then (ev0, .error .overlapTooBig)
  else
    match iterChunkSpansAux text maxChars.toNat overlapChars.toNat fuel 0 with
    | none => (ev0, .error .fuelExhausted)
    | some spans =>
      let newlines := computeNewlinePositions text
      let width := max 4 (Nat.repr spans.length).length
      (ev0 ++ emitChunkEvents enc text width 1 spans ++ [FsEvent.writeIndex],
       .ok (emitChunks enc hashFn text newlines width 1 spans))

/-- The spec's version of `_choose_chunk_end`, stated for the refinement
comparison of claim C3: identical to `chooseChunkEnd` except that it uses
the exact mathematical `min_end = s + floor((hardEnd - s) * 0.6)`
(`floor (0.6 * n) = 3 * n / 5` in natural division) where the source
computes `int((hard_end - start) * 0.6)` in binary64 arithmetic. -/
def chooseChunkEndSpec (text : List Char) (start hardEnd : Nat) : Nat :=
  if text.length ≤ hardEnd then text.length
  else
    let minEnd := start + 3 * (hardEnd - start) / 5
    match rfindNewline text start hardEnd with
    | some nl => if minEnd ≤ nl then nl + 1 else hardEnd
    | none => hardEnd

/-- Concrete stand-in for the external UTF-8 encoder in evaluation
witnesses (on ASCII inputs it agrees with UTF-8). -/
def enc0 : List Char → List Nat := fun cs => cs.map Char.toNat

/-- Concrete stand-in for the external SHA-256 hex digest in evaluation
witnesses: any deterministic function of the bytes exercises the claims
about hash plumbing. -/
def hashFn0 : List Nat → String := fun bs => Nat.repr (bs.foldl (fun a b => a + b) 0)

/-- Concrete input on which the span loop of `_iter_chunk_spans` never
terminates with `max_chars = 10`, `overlap_chars = 9`: eleven characters
with a newline at offset 6. -/
def pathologicalText : List Char :=
  'a' :: 'a' :: 'a' :: 'a' :: 'a' :: 'a' :: '\n' :: 'b' :: 'b' :: 'b' :: 'b' :: []

/-- The window width at which the binary64 computation `int(n * 0.6)` of
`_choose_chunk_end` first differs from the exact `floor(0.6 * n)`:
`int(floatWidthC3 * 0.6) = 4503599627370497` but
`floor(0.6 * floatWidthC3) = 4503599627370496`. -/
def floatWidthC3 : Nat := 7505999378950828

/-- The newline offset separating the two branches at `floatWidthC3`:
equal to the exact `floor(0.6 * floatWidthC3)` and one less than the
binary64 `int(floatWidthC3 * 0.6)`. -/
def nlPosC3 : Nat := 4503599627370496

/-- Concrete text witnessing the divergence of claim C3: a single newline
at offset `nlPosC3` inside a text one character longer than the window
`floatWidthC3`. -/
def textC3 : List Char :=
  List.replicate nlPosC3 'a' ++ '\n' :: List.replicate (floatWidthC3 - nlPosC3) 'a'

end ChunkText

namespace SplitCode

/-- A parsed tree-sitter node as split_code_treesitter.py consumes it:
its `type` tag, byte span `start_byte`/`end_byte`, the row components of
`start_point`/`end_point` (the only point components the source reads,
lines 240-241), and its `named_children`.  Tree-sitter itself is an
external collaborator; the node shape is exactly what the source accesses
through `getattr`. -/
inductive TsNode where
  | node (type : String) (startByte endByte startRow endRow : Nat)
      (namedChildren : List TsNode)

/-- Node type tag accessor (`node.type`). -/
def TsNode.type : TsNode → String
  | .node t _ _ _ _ _ => t

/-- Accessor for `node.start_byte`. -/
def TsNode.startByte : TsNode → Nat
  | .node _ sb _ _ _ _ => sb

/-- Accessor for `node.end_byte`. -/
def TsNode.endByte : TsNode → Nat
  | .node _ _ eb _ _ _ => eb

/-- Accessor for `node.start_point[0]`. -/
def TsNode.startRow : TsNode → Nat
  | .node _ _ _ sr _ _ => sr

/-- Accessor for `node.end_point[0]`. -/
def TsNode.endRow : TsNode → Nat
  | .node _ _ _ _ er _ => er

/-- Accessor for `node.named_children`. -/
def TsNode.namedChildren : TsNode → List TsNode
  | .node _ _ _ _ _ cs => cs

mutual

/-- Number of nodes of a tree, used as the termination measure of the
stack-based descendant search. -/
def TsNode.size : TsNode → Nat
  | .node _ _ _ _ _ cs => 1 + sizeList cs

/-- Total node count of a list of trees. -/
def sizeList : List TsNode → Nat
  | [] => 0
  | n :: ns => TsNode.size n + sizeList ns

end

theorem sizeList_append (a b : List TsNode) :
    sizeList (a ++ b) = sizeList a + sizeList b := by
  induction a with
  | nil => simp [sizeList]
  | cons n ns ih => simp [sizeList, ih, Nat.add_assoc]

theorem sizeList_reverse (a : List TsNode) :
    sizeList a.reverse = sizeList a := by
  induction a with
  | nil => rfl
  | cons n ns ih =>
    simp only [List.reverse_cons, sizeList_append, sizeList, ih]; omega

theorem sizeList_take_le (k : Nat) (a : List TsNode) :
    sizeList (a.take k) ≤ sizeList a := by
  induction a generalizing k with
  | nil => simp [List.take_nil]
  | cons n ns ih =>
    cases k with
    | zero => simp [List.take_zero, sizeList]
    | succ k =>
      simp only [List.take_succ_cons, sizeList]
      exact Nat.add_le_add_left (ih k) _

theorem size_pos_children (n : TsNode) :
    sizeList n.namedChildren < TsNode.size n := by
  cases n with
  | node t sb eb sr er cs => simp [TsNode.namedChildren, TsNode.size]

/-- A parsed tree (`tree.root_node` is the only field the source reads). -/
structure TsTree where
  rootNode : TsNode

/-- Embeds `INTERESTING_NODE_TYPES` (split_code_treesitter.py lines 53-85)
with the `dict.get(language, set())` default of line 149. -/
def INTERESTING_NODE_TYPES (language : String) : List String :=
  if language = "python" then
    ["function_definition", "class_definition", "decorated_definition"]
  else if language = "javascript" then
    ["function_declaration", "class_declaration"]
  else if language = "jsx" then
    ["function_declaration", "class_declaration"]
  else if language = "typescript" then
    ["function_declaration", "class_declaration", "interface_declaration",
     "enum_declaration", "type_alias_declaration"]
  else if language = "tsx" then
    ["function_declaration", "class_declaration", "interface_declaration",
     "enum_declaration", "type_alias_declaration"]
  else if language = "go" then
    ["function_declaration", "method_declaration", "type_declaration"]
  else if language = "rust" then
    ["function_item", "struct_item", "enum_item", "impl_item", "trait_item",
     "mod_item"]
  else if language = "java" then
    ["class_declaration", "interface_declaration", "enum_declaration",
     "method_declaration", "constructor_declaration"]
  else if language = "c" then
    ["function_definition", "struct_specifier", "enum_specifier",
     "union_specifier"]
  else if language = "cpp" then
    ["function_definition", "class_specifier", "struct_specifier",
     "enum_specifier", "namespace_definition"]
  else if language = "ruby" then
    ["method", "class", "module"]
  else if language = "php" then
    ["function_definition", "class_declaration", "interface_declaration",
     "trait_declaration"]
  else if language = "bash" then
    ["function_definition"]
  else []

/-- Embeds `WRAPPER_NODE_TYPES` (split_code_treesitter.py lines 88-94) with
the `dict.get(language, set())` default of line 150. -/
def WRAPPER_NODE_TYPES (language : String) : List String :=
  if language = "python" then
    ["decorated_definition"]
  else if language = "javascript" then
    ["export_statement", "export_default_declaration"]
  else if language = "jsx" then
    ["export_statement", "export_default_declaration"]
  else if language = "typescript" then
    ["export_statement", "export_default_declaration"]
  else if language = "tsx" then
    ["export_statement", "export_default_declaration"]
  else []

/-- The stack loop of `_has_interesting_descendant`
(split_code_treesitter.py lines 135-144), with the stack top at the list
head.  Python pops from the end of the list and extends at the end, so a
Python stack `[a, b, c]` is the Lean list `[c, b, a]`; pushing
`n.named_children[:8]` therefore prepends the reversed 8-element prefix. -/
def searchStack (interesting : List String) : List TsNode → Bool
  | [] => false
  | n :: rest =>
    if n.type ∈ interesting then true
    else searchStack interesting (((n.namedChildren.take 8).reverse) ++ rest)
  termination_by stack => sizeList stack
  decreasing_by
    simp only [sizeList_append, sizeList_reverse, sizeList]
    have h1 : sizeList (n.namedChildren.take 8) ≤ sizeList n.namedChildren :=
      sizeList_take_le _ _
    have h2 : sizeList n.namedChildren < TsNode.size n := size_pos_children n
    omega

/-- Embeds `_has_interesting_descendant` (split_code_treesitter.py lines
135-144): the initial stack is `list(node.named_children)` whose Python
last element (popped first) is the Lean head, hence the reverse. -/
def hasInterestingDescendant (n : TsNode) (interesting : List String) : Bool :=
  searchStack interesting n.namedChildren.reverse

/-- The selection loop of `_top_level_chunks` (split_code_treesitter.py
lines 152-162) over the root's named children in source order. -/
def selectTopNodes (interesting wrappers : List String) : List TsNode → List TsNode
  | [] => []
  | c :: cs =>
    if c.type ∈ interesting then c :: selectTopNodes interesting wrappers cs
    else if c.type ∈ wrappers ∧ hasInterestingDescendant c interesting then
      c :: selectTopNodes interesting wrappers cs
    else selectTopNodes interesting wrappers cs

/-- Embeds `_top_level_chunks` (split_code_treesitter.py lines 147-162). -/
def topLevelChunks (tree : TsTree) (language : String) : List TsNode :=
  selectTopNodes (INTERESTING_NODE_TYPES language) (WRAPPER_NODE_TYPES language)
    tree.rootNode.namedChildren

/-- The chunk record of split_code_treesitter.py (dataclass `Chunk`,
lines 100-111). -/
structure CodeChunk where
  chunk_id : String
  source_file : String
  language : String
  node_type : String
  start_line : Nat
  end_line : Nat
  start_byte : Nat
  end_byte : Nat
  path : String
  sha256 : String
  deriving Repr, DecidableEq

/-- A directory entry name that `_clear_existing_chunks` removes
(split_code_treesitter.py line 171): `index.json`, or a `chunk_*.txt`
file.  `p.suffix == ".txt"` of pathlib is embedded as an `.endsWith`
check, which agrees for every name carrying an extension. -/
def isClearTarget (name : String) : Bool :=
  name = "index.json" ||
    (List.isPrefixOf "chunk_".toList name.toList &&
     List.isSuffixOf ".txt".toList name.toList)

/-- A name matching `p.name.startswith("chunk_") and p.suffix == ".txt"`,
the refusal test of split_code_treesitter.py line 222 (and, on the
character pipeline, of `_would_overwrite_existing_chunks`, chunk_text.py
line 55). -/
def isChunkFileName (name : String) : Bool :=
  List.isPrefixOf "chunk_".toList name.toList &&
    List.isSuffixOf ".txt".toList name.toList

/-- The per-node emission loop of `split_code` (split_code_treesitter.py
lines 230-256): for the `i`-th selected node slice `data[start_byte:end_byte]`,
write exactly those bytes to `chunk_XXXX.txt` and record the SHA-256 of the
same bytes (`_sha256(chunk_bytes)`, line 253).  `hashFn` stands for the
external `hashlib.sha256(...).hexdigest()`.  The `path` field keeps only the
final file name; the source prefixes it with the per-file chunk directory,
which is path plumbing outside the embedded core. -/
def emitCodeChunks (hashFn : List Nat → String) (data : List Nat)
    (language relPath : String) (width : Nat) :
    Nat → List TsNode → List CodeChunk
  | _, [] => []
  | i, n :: rest =>
    let pad := ChunkText.zeroPad (Nat.repr i) width
    let bytes := ChunkText.sliceBytes data n.startByte n.endByte
    { chunk_id := relPath ++ "::chunk_" ++ pad
      source_file := relPath
      language := language
      node_type := n.type
      start_line := n.startRow + 1
      end_line := n.endRow + 1
      start_byte := n.startByte
      end_byte := n.endByte
      path := "chunk_" ++ pad ++ ".txt"
      sha256 := hashFn bytes } ::
      emitCodeChunks hashFn data language relPath width (i + 1) rest

/-- The write events of the same loop, in emission order: `write_bytes`
persists exactly the hashed byte slice (split_code_treesitter.py line 238). -/
def emitCodeChunkEvents (data : List Nat) (width : Nat) :
    Nat → List TsNode → List ChunkText.FsEvent
  | _, [] => []
  | i, n :: rest =>
    let pad := ChunkText.zeroPad (Nat.repr i) width
    ChunkText.FsEvent.writeChunkFile ("chunk_" ++ pad ++ ".txt")
        (ChunkText.sliceBytes data n.startByte n.endByte) ::
      emitCodeChunkEvents data width (i + 1) rest

/-- Embeds the per-source-file body of `split_code`
(split_code_treesitter.py lines 199-270) for one file, as an event trace
plus outcome.  `priorNames` are the entries of the per-file chunk
directory before the run (`chunk_dir.iterdir()`); `tree` is the parsed
tree of `data`.  If no top-level node is selected the file is skipped with
no output (`continue`, line 214).  Otherwise the chunk directory is
created; with `force` every prior clear target is unlinked first
(`_clear_existing_chunks`), without `force` the run fails when a prior
`chunk_*.txt` exists; then each chunk file and the per-file `index.json`
manifest are written. -/
def splitCodeFile (hashFn : List Nat → String) (data : List Nat)
    (tree : TsTree) (language relPath : String) (priorNames : List String)
    (force : Bool) : List ChunkText.FsEvent × Except ChunkText.ChunkErr (List CodeChunk) :=
  let nodes := topLevelChunks tree language
  if nodes.isEmpty then ([], .ok [])
  else
    let ev0 := [ChunkText.FsEvent.mkdirChunkDir]
    if ¬force ∧ (priorNames.any isChunkFileName) then
      (ev0, .error .priorChunks)
    else
      let evClear :=
        if force then (priorNames.filter isClearTarget).map ChunkText.FsEvent.removePrior
        else []
      let width := max 4 (Nat.repr nodes.length).length
      (ev0 ++ evClear ++ emitCodeChunkEvents data width 1 nodes ++
         [ChunkText.FsEvent.writeIndex],
       .ok (emitCodeChunks hashFn data language relPath width 1 nodes))

/-- The wrapper-descendant search as claim C8 words it, stated for the
refinement comparison: inspect only the wrapper's immediate named children
and one additional level of descendants, at most the first 8 children per
level. -/
def hasInterestingWithinTwoLevels (n : TsNode) (interesting : List String) : Bool :=
  (n.namedChildren.take 8).any (fun c =>
    decide (c.type ∈ interesting) ||
      (c.namedChildren.take 8).any (fun d => decide (d.type ∈ interesting)))

theorem size_ge_one (n : TsNode) : 1 ≤ TsNode.size n := by
  cases n with
  | node t sb eb sr er cs => simp [TsNode.size]

mutual

/-- All nodes the stack search can visit below one pushed node: the node
itself and, recursively, everything below its first 8 named children.
Used to characterise `hasInterestingDescendant` (amended claim C8). -/
def reach8 (n : TsNode) : List TsNode :=
  n :: reach8List (n.namedChildren.take 8)
  termination_by 2 * TsNode.size n
  decreasing_by
    have h1 : sizeList (n.namedChildren.take 8) ≤ sizeList n.namedChildren :=
      sizeList_take_le _ _
    have h2 : sizeList n.namedChildren < TsNode.size n := size_pos_children n
    omega

/-- Union of `reach8` over a list of nodes. -/
def reach8List : List TsNode → List TsNode
  | [] => []
  | n :: ns => reach8 n ++ reach8List ns
  termination_by ns => 2 * sizeList ns + 1
  decreasing_by
    · simp only [sizeList]
      omega
    · have h := size_ge_one n
      simp only [sizeList]
      omega

end

/-- Concrete python module used as an evaluation witness: one plain
function, one import (skipped), one decorated definition. -/
def pyTree : TsTree :=
  TsTree.mk (TsNode.node "module" 0 100 0 9
    [TsNode.node "function_definition" 0 10 0 1 [],
     TsNode.node "import_statement" 11 20 2 2 [],
     TsNode.node "decorated_definition" 21 60 3 6
       [TsNode.node "function_definition" 30 60 4 6 []]])

/-- Concrete single-function python tree over a 5-byte buffer, used as an
evaluation witness for the emission claims. -/
def tinyTree : TsTree :=
  TsTree.mk (TsNode.node "module" 0 5 0 0
    [TsNode.node "function_definition" 1 4 0 0 []])

/-- Concrete tree used to separate the stack search from the two-level
search of claim C8: a wrapper whose only interesting descendant sits three
levels down. -/
def deepTree : TsNode :=
  TsNode.node "export_statement" 0 40 0 3
    [TsNode.node "lvl1" 0 40 0 3
      [TsNode.node "lvl2" 5 40 1 3
        [TsNode.node "function_declaration" 10 40 2 3 []]]]

end SplitCode

namespace SplitCode

theorem mem_reach8List (m : TsNode) (ns : List TsNode) :
    m ∈ reach8List ns ↔ ∃ c ∈ ns, m ∈ reach8 c := by
  induction ns with
  | nil => simp [reach8List]
  | cons n ns ih =>
    rw [reach8List]
    simp [List.mem_append, ih]

theorem mem_reach8_iff (m n : TsNode) :
    m ∈ reach8 n ↔ m = n ∨ ∃ c ∈ n.namedChildren.take 8, m ∈ reach8 c := by
  rw [reach8]
  simp [mem_reach8List]

theorem self_mem_reach8 (n : TsNode) : n ∈ reach8 n := by
  rw [reach8]; exact List.mem_cons_self _ _

theorem searchStack_true_iff (I : List String) :
    ∀ (k : Nat) (stack : List TsNode), sizeList stack ≤ k →
      (searchStack I stack = true ↔
        ∃ m, (∃ n ∈ stack, m ∈ reach8 n) ∧ m.type ∈ I) := by
  intro k
  induction k with
  | zero =>
    intro stack hs
    cases stack with
    | nil => simp [searchStack]
    | cons n rest =>
      exfalso
      have h := size_ge_one n
      simp only [sizeList] at hs
      omega
  | succ k ih =>
    intro stack hs
    cases stack with
    | nil => simp [searchStack]
    | cons n rest =>
      rw [searchStack]
      by_cases hn : n.type ∈ I
      · simp only [hn, if_pos]
        constructor
        · intro _
          exact ⟨n, ⟨n, List.mem_cons_self _ _, self_mem_reach8 n⟩, hn⟩
        · intro _; trivial
      · have hsz : sizeList ((n.namedChildren.take 8).reverse ++ rest) ≤ k := by
          rw [sizeList_append, sizeList_reverse]
          have h1 : sizeList (n.namedChildren.take 8) ≤ sizeList n.namedChildren :=
            sizeList_take_le _ _
          have h2 : sizeList n.namedChildren < TsNode.size n := size_pos_children n
          simp only [sizeList] at hs
          omega
        rw [if_neg hn, ih _ hsz]
        constructor
        · rintro ⟨m, ⟨c, hc, hm⟩, hmI⟩
          have hc2 : c ∈ n.namedChildren.take 8 ∨ c ∈ rest := by
            simpa using hc
          rcases hc2 with hcl | hcr
          · exact ⟨m, ⟨n, List.mem_cons_self _ _,
              (mem_reach8_iff m n).mpr (Or.inr ⟨c, hcl, hm⟩)⟩, hmI⟩
          · exact ⟨m, ⟨c, List.mem_cons_of_mem _ hcr, hm⟩, hmI⟩
        · rintro ⟨m, ⟨c, hc, hm⟩, hmI⟩
          rcases List.mem_cons.mp hc with rfl | hcr
          · rcases (mem_reach8_iff m c).mp hm with rfl | ⟨d, hd, hmd⟩
            · exact absurd hmI hn
            · exact ⟨m, ⟨d, List.mem_append.mpr (Or.inl (List.mem_reverse.mpr hd)), hmd⟩, hmI⟩
          · exact ⟨m, ⟨c, List.mem_append.mpr (Or.inr hcr), hm⟩, hmI⟩

theorem hasInterestingDescendant_iff (n : TsNode) (I : List String) :
    hasInterestingDescendant n I = true ↔
      ∃ m, (∃ c ∈ n.namedChildren, m ∈ reach8 c) ∧ m.type ∈ I := by
  unfold hasInterestingDescendant
  rw [searchStack_true_iff I (sizeList n.namedChildren.reverse) _ (Nat.le_refl _)]
  constructor
  · rintro ⟨m, ⟨c, hc, hm⟩, hI⟩
    exact ⟨m, ⟨c, List.mem_reverse.mp hc, hm⟩, hI⟩
  · rintro ⟨m, ⟨c, hc, hm⟩, hI⟩
    exact ⟨m, ⟨c, List.mem_reverse.mpr hc, hm⟩, hI⟩

theorem selectTopNodes_eq_filter (I W : List String) (cs : List TsNode) :
    selectTopNodes I W cs = cs.filter (fun c =>
      decide (c.type ∈ I) ||
        (decide (c.type ∈ W) && hasInterestingDescendant c I)) := by
  induction cs with
  | nil => rfl
  | cons c cs ih =>
    simp only [selectTopNodes, List.filter_cons]
    by_cases h1 : c.type ∈ I
    · simp [h1, ih]
    · by_cases hw : c.type ∈ W
      · cases hd : hasInterestingDescendant c I with
        | true => simp [h1, hw, hd, ih]
        | false => simp [h1, hw, hd, ih]
      · simp [h1, hw, ih]

/-- Claim C7: a top-level named child is selected by `_top_level_chunks` if
and only if its node type is in the language's interesting set, or its type
is in the language's wrapper set and the descendant search finds an
interesting descendant; the selected node is the child (hence, in the
wrapper case, the wrapper) itself, so every emitted span is the selected
child's own full span. -/
theorem C7_top_level_selection (tree : TsTree) (language : String) :
    topLevelChunks tree language =
      tree.rootNode.namedChildren.filter (fun c =>
        decide (c.type ∈ INTERESTING_NODE_TYPES language) ||
          (decide (c.type ∈ WRAPPER_NODE_TYPES language) &&
            hasInterestingDescendant c (INTERESTING_NODE_TYPES language))) ∧
    ∀ c ∈ topLevelChunks tree language, c ∈ tree.rootNode.namedChildren := by
  constructor
  · exact selectTopNodes_eq_filter _ _ _
  · intro c hc
    rw [topLevelChunks, selectTopNodes_eq_filter] at hc
    exact List.mem_of_mem_filter hc

/-- Witness for claim C7, instantiated at a concrete python tree. -/
theorem C7_top_level_selection_witness :
    topLevelChunks pyTree "python" =
      pyTree.rootNode.namedChildren.filter (fun c =>
        decide (c.type ∈ INTERESTING_NODE_TYPES "python") ||
          (decide (c.type ∈ WRAPPER_NODE_TYPES "python") &&
            hasInterestingDescendant c (INTERESTING_NODE_TYPES "python"))) ∧
    TsNode.node "decorated_definition" 21 60 3 6
        [TsNode.node "function_definition" 30 60 4 6 []] ∈
      pyTree.rootNode.namedChildren :=
  ⟨(C7_top_level_selection pyTree "python").1,
   (C7_top_level_selection pyTree "python").2 _ (by
     rw [topLevelChunks, selectTopNodes_eq_filter]
     simp [pyTree, TsNode.type, TsNode.namedChildren, INTERESTING_NODE_TYPES])⟩

/-- Counterexample for claim C8: `deepTree` has its only interesting
descendant three levels below the wrapper, strictly beyond the two-level
window the claim describes, yet `_has_interesting_descendant` finds it: the
stack search recurses to unbounded depth, so nodes deeper than two levels do
influence wrapper selection. -/
theorem C8_counterexample :
    hasInterestingDescendant deepTree (INTERESTING_NODE_TYPES "javascript") = true ∧
    hasInterestingWithinTwoLevels deepTree (INTERESTING_NODE_TYPES "javascript") = false := by
  constructor
  · rw [hasInterestingDescendant_iff]
    refine ⟨TsNode.node "function_declaration" 10 40 2 3 [],
      ⟨TsNode.node "lvl1" 0 40 0 3
        [TsNode.node "lvl2" 5 40 1 3
          [TsNode.node "function_declaration" 10 40 2 3 []]],
       by simp [deepTree, TsNode.namedChildren], ?_⟩,
      by simp [TsNode.type, INTERESTING_NODE_TYPES]⟩
    rw [mem_reach8_iff]
    refine Or.inr ⟨TsNode.node "lvl2" 5 40 1 3
      [TsNode.node "function_declaration" 10 40 2 3 []],
      by simp [TsNode.namedChildren], ?_⟩
    rw [mem_reach8_iff]
    exact Or.inr ⟨TsNode.node "function_declaration" 10 40 2 3 [],
      by simp [TsNode.namedChildren], self_mem_reach8 _⟩
  · decide

/-- Claim C8 as amended: the wrapper-descendant search is a depth-first
traversal that starts from all of the wrapper's immediate named children
and, below each visited node, continues through that node's first 8 named
children, to unbounded depth; it reports an interesting descendant exactly
when some node so reachable has an interesting type. -/
theorem C8_search_characterisation (n : TsNode) (I : List String) :
    hasInterestingDescendant n I = true ↔
      ∃ m, (∃ c ∈ n.namedChildren, m ∈ reach8 c) ∧ m.type ∈ I :=
  hasInterestingDescendant_iff n I

/-- Witness for amended claim C8: the characterisation applied at
`deepTree` with the javascript node-type table. -/
theorem C8_search_characterisation_witness :
    hasInterestingDescendant deepTree (INTERESTING_NODE_TYPES "javascript") = true :=
  (C8_search_characterisation deepTree (INTERESTING_NODE_TYPES "javascript")).mpr
    ⟨TsNode.node "function_declaration" 10 40 2 3 [],
     ⟨TsNode.node "lvl1" 0 40 0 3
        [TsNode.node "lvl2" 5 40 1 3
          [TsNode.node "function_declaration" 10 40 2 3 []]],
      by simp [deepTree, TsNode.namedChildren], by
        rw [mem_reach8_iff]
        refine Or.inr ⟨TsNode.node "lvl2" 5 40 1 3
          [TsNode.node "function_declaration" 10 40 2 3 []],
          by simp [TsNode.namedChildren], ?_⟩
        rw [mem_reach8_iff]
        exact Or.inr ⟨TsNode.node "function_declaration" 10 40 2 3 [],
          by simp [TsNode.namedChildren], self_mem_reach8 _⟩⟩,
     by simp [TsNode.type, INTERESTING_NODE_TYPES]⟩

end SplitCode

namespace ChunkText

theorem emitChunks_shape (enc : List Char → List Nat) (hashFn : List Nat → String)
    (text : List Char) (newlines : List Nat) (width : Nat) :
    ∀ (i : Nat) (spans : List (Nat × Nat)) (c : Chunk),
      c ∈ emitChunks enc hashFn text newlines width i spans →
      ∃ s e, (s, e) ∈ spans ∧
        c.start_char = s ∧ c.end_char = e ∧
        c.start_line = lineNumberAt newlines s ∧
        c.end_line = lineNumberAt newlines (max s (e - 1)) ∧
        c.sha256 = hashFn (enc (slice text s e)) ∧
        FsEvent.writeChunkFile c.path (enc (slice text s e)) ∈
          emitChunkEvents enc text width i spans := by
  intro i spans
  induction spans generalizing i with
  | nil => intro c hc; simp [emitChunks] at hc
  | cons p rest ih =>
    obtain ⟨s, e⟩ := p
    intro c hc
    simp only [emitChunks] at hc
    rcases List.mem_cons.mp hc with rfl | hcr
    · refine ⟨s, e, List.mem_cons_self _ _, rfl, rfl, rfl, rfl, rfl, ?_⟩
      simp [emitChunkEvents]
    · obtain ⟨s2, e2, hmem, h1, h2, h3, h4, h5, h6⟩ := ih (i + 1) c hcr
      refine ⟨s2, e2, List.mem_cons_of_mem _ hmem, h1, h2, h3, h4, h5, ?_⟩
      simp only [emitChunkEvents]
      exact List.mem_cons_of_mem _ h6

theorem chunkTextRun_ok_elim (enc : List Char → List Nat)
    (hashFn : List Nat → String) (text : List Char) (wouldOverwrite : Bool)
    (maxChars overlapChars : Int) (force : Bool) (fuel : Nat)
    (trace : List FsEvent) (chunks : List Chunk)
    (h : chunkTextRun enc hashFn text wouldOverwrite maxChars overlapChars force fuel =
      (trace, .ok chunks)) :
    ∃ spans, iterChunkSpansAux text maxChars.toNat overlapChars.toNat fuel 0 = some spans ∧
      chunks = emitChunks enc hashFn text (computeNewlinePositions text)
        (max 4 (Nat.repr spans.length).length) 1 spans ∧
      trace = [FsEvent.readSource, FsEvent.mkdirOut] ++
        emitChunkEvents enc text (max 4 (Nat.repr spans.length).length) 1 spans ++
        [FsEvent.writeIndex] := by
  unfold chunkTextRun at h
  split at h
  · simp at h
  · split at h
    · simp at h
    · split at h
      · simp at h
      · split at h
        · simp at h
        · split at h
          · simp at h
          · rename_i spans heq
            refine ⟨spans, heq, ?_, ?_⟩
            · have h2 := congrArg Prod.snd h
              simp only at h2
              simpa using h2.symm
            · have h1 := congrArg Prod.fst h
              simp only at h1
              exact h1.symm

end ChunkText

namespace SplitCode

theorem emitCodeChunks_shape (hashFn : List Nat → String) (data : List Nat)
    (language relPath : String) (width : Nat) :
    ∀ (i : Nat) (nodes : List TsNode) (c : CodeChunk),
      c ∈ emitCodeChunks hashFn data language relPath width i nodes →
      ∃ n ∈ nodes,
        c.start_byte = n.startByte ∧ c.end_byte = n.endByte ∧
        c.start_line = n.startRow + 1 ∧ c.end_line = n.endRow + 1 ∧
        c.node_type = n.type ∧
        c.sha256 = hashFn (ChunkText.sliceBytes data n.startByte n.endByte) ∧
        ChunkText.FsEvent.writeChunkFile c.path
            (ChunkText.sliceBytes data n.startByte n.endByte) ∈
          emitCodeChunkEvents data width i nodes := by
  intro i nodes
  induction nodes generalizing i with
  | nil => intro c hc; simp [emitCodeChunks] at hc
  | cons n rest ih =>
    intro c hc
    simp only [emitCodeChunks] at hc
    rcases List.mem_cons.mp hc with rfl | hcr
    · refine ⟨n, List.mem_cons_self _ _, rfl, rfl, rfl, rfl, rfl, rfl, ?_⟩
      simp [emitCodeChunkEvents]
    · obtain ⟨n2, hmem, h1, h2, h3, h4, h5, h6, h7⟩ := ih (i + 1) c hcr
      refine ⟨n2, List.mem_cons_of_mem _ hmem, h1, h2, h3, h4, h5, h6, ?_⟩
      simp only [emitCodeChunkEvents]
      exact List.mem_cons_of_mem _ h7

theorem splitCodeFile_ok_elim (hashFn : List Nat → String) (data : List Nat)
    (tree : TsTree) (language relPath : String) (priorNames : List String)
    (force : Bool) (trace : List ChunkText.FsEvent) (chunks : List CodeChunk)
    (h : splitCodeFile hashFn data tree language relPath priorNames force =
      (trace, .ok chunks)) :
    (topLevelChunks tree language = [] ∧ trace = [] ∧ chunks = []) ∨
    (chunks = emitCodeChunks hashFn data language relPath
        (max 4 (Nat.repr (topLevelChunks tree language).length).length) 1
        (topLevelChunks tree language) ∧
      trace = [ChunkText.FsEvent.mkdirChunkDir] ++
        (if force then (priorNames.filter isClearTarget).map ChunkText.FsEvent.removePrior
         else []) ++
        emitCodeChunkEvents data
          (max 4 (Nat.repr (topLevelChunks tree language).length).length) 1
          (topLevelChunks tree language) ++
        [ChunkText.FsEvent.writeIndex]) := by
  unfold splitCodeFile at h
  by_cases hempty : (topLevelChunks tree language).isEmpty = true
  · rw [if_pos hempty] at h
    rw [Prod.mk.injEq] at h
    left
    refine ⟨List.isEmpty_iff.mp hempty, h.1.symm, ?_⟩
    have h2 := h.2
    simpa using h2.symm
  · rw [if_neg hempty] at h
    by_cases hprior : (¬force = true ∧ priorNames.any isChunkFileName = true)
    · rw [if_pos hprior] at h
      rw [Prod.mk.injEq] at h
      exact absurd h.2 (by simp)
    · rw [if_neg hprior] at h
      rw [Prod.mk.injEq] at h
      right
      constructor
      · have h2 := h.2
        simpa using h2.symm
      · have h1 := h.1
        simp only [List.append_assoc, List.cons_append, List.nil_append] at h1 ⊢
        exact h1.symm

end SplitCode

namespace Claims

/-- Claim C9: in both pipelines, every emitted chunk's recorded `sha256`
field is the digest of exactly the bytes persisted to that chunk's file,
and the digest is a deterministic function of those bytes.  `hashFn` is the
external SHA-256 collaborator (`hashlib.sha256(...).hexdigest()`), `enc`
the external UTF-8 encoder; the sources hash and persist one and the same
byte string (chunk_text.py lines 126 and 133, split_code_treesitter.py
lines 238 and 253). -/
theorem C9_hash_matches_persisted_bytes
    (enc : List Char → List Nat) (hashFn : List Nat → String) :
    (∀ text wouldOverwrite maxChars overlapChars force fuel trace chunks,
      ChunkText.chunkTextRun enc hashFn text wouldOverwrite maxChars overlapChars
          force fuel = (trace, .ok chunks) →
      ∀ c ∈ chunks, ∃ content,
        ChunkText.FsEvent.writeChunkFile c.path content ∈ trace ∧
          c.sha256 = hashFn content) ∧
    (∀ data tree language relPath priorNames force trace chunks,
      SplitCode.splitCodeFile hashFn data tree language relPath priorNames force
          = (trace, .ok chunks) →
      ∀ c ∈ chunks, ∃ content,
        ChunkText.FsEvent.writeChunkFile c.path content ∈ trace ∧
          c.sha256 = hashFn content) ∧
    (∀ b1 b2 : List Nat, b1 = b2 → hashFn b1 = hashFn b2) := by
  refine ⟨?_, ?_, fun b1 b2 hb => congrArg hashFn hb⟩
  · intro text wov maxChars overlapChars force fuel trace chunks h c hc
    obtain ⟨spans, _, hchunks, htrace⟩ :=
      ChunkText.chunkTextRun_ok_elim enc hashFn text wov maxChars overlapChars
        force fuel trace chunks h
    subst hchunks
    obtain ⟨s, e, _, _, _, _, _, hsha, hev⟩ :=
      ChunkText.emitChunks_shape enc hashFn text _ _ _ _ c hc
    refine ⟨enc (ChunkText.slice text s e), ?_, hsha⟩
    rw [htrace]
    simp only [List.mem_append]
    tauto
  · intro data tree language relPath priorNames force trace chunks h c hc
    rcases SplitCode.splitCodeFile_ok_elim hashFn data tree language relPath
        priorNames force trace chunks h with ⟨_, _, hchunks⟩ | ⟨hchunks, htrace⟩
    · subst hchunks; cases hc
    · subst hchunks
      obtain ⟨n, _, _, _, _, _, _, hsha, hev⟩ :=
        SplitCode.emitCodeChunks_shape hashFn data language relPath _ _ _ c hc
      refine ⟨ChunkText.sliceBytes data n.startByte n.endByte, ?_, hsha⟩
      rw [htrace]
      simp only [List.mem_append]
      tauto

/-- Witness for claim C9: the theorem applied to one concrete successful
run of each pipeline. -/
theorem C9_hash_matches_persisted_bytes_witness :
    (∃ content,
      ChunkText.FsEvent.writeChunkFile "chunk_0001.txt" content ∈
        [ChunkText.FsEvent.readSource, ChunkText.FsEvent.mkdirOut,
         ChunkText.FsEvent.writeChunkFile "chunk_0001.txt" [97, 98, 10],
         ChunkText.FsEvent.writeChunkFile "chunk_0002.txt" [10, 99, 100],
         ChunkText.FsEvent.writeIndex] ∧
      "205" = ChunkText.hashFn0 content) ∧
    (∃ content,
      ChunkText.FsEvent.writeChunkFile "chunk_0001.txt" content ∈
        [ChunkText.FsEvent.mkdirChunkDir,
         ChunkText.FsEvent.removePrior "chunk_0001.txt",
         ChunkText.FsEvent.writeChunkFile "chunk_0001.txt" [20, 30, 40],
         ChunkText.FsEvent.writeIndex] ∧
      "90" = ChunkText.hashFn0 content) := by
  constructor
  · exact (C9_hash_matches_persisted_bytes ChunkText.enc0 ChunkText.hashFn0).1
      ('a' :: 'b' :: '\n' :: 'c' :: 'd' :: []) false 3 1 false 10
      [ChunkText.FsEvent.readSource, ChunkText.FsEvent.mkdirOut,
       ChunkText.FsEvent.writeChunkFile "chunk_0001.txt" [97, 98, 10],
       ChunkText.FsEvent.writeChunkFile "chunk_0002.txt" [10, 99, 100],
       ChunkText.FsEvent.writeIndex]
      [{ chunk_id := "chunk_0001", path := "chunk_0001.txt", start_char := 0,
         end_char := 3, start_line := 1, end_line := 1, sha256 := "205" },
       { chunk_id := "chunk_0002", path := "chunk_0002.txt", start_char := 2,
         end_char := 5, start_line := 1, end_line := 2, sha256 := "209" }]
      (by rfl)
      { chunk_id := "chunk_0001", path := "chunk_0001.txt", start_char := 0,
        end_char := 3, start_line := 1, end_line := 1, sha256 := "205" }
      (by decide)
  · exact (C9_hash_matches_persisted_bytes ChunkText.enc0 ChunkText.hashFn0).2.1
      [10, 20, 30, 40, 50] SplitCode.tinyTree "python" "m.py"
      ["chunk_0001.txt", "notes.md"] true
      [ChunkText.FsEvent.mkdirChunkDir,
       ChunkText.FsEvent.removePrior "chunk_0001.txt",
       ChunkText.FsEvent.writeChunkFile "chunk_0001.txt" [20, 30, 40],
       ChunkText.FsEvent.writeIndex]
      [{ chunk_id := "m.py::chunk_0001", source_file := "m.py",
         language := "python", node_type := "function_definition",
         start_line := 1, end_line := 1, start_byte := 1, end_byte := 4,
         path := "chunk_0001.txt", sha256 := "90" }]
      (by rfl)
      { chunk_id := "m.py::chunk_0001", source_file := "m.py",
        language := "python", node_type := "function_definition",
        start_line := 1, end_line := 1, start_byte := 1, end_byte := 4,
        path := "chunk_0001.txt", sha256 := "90" }
      (by decide)

end Claims

namespace ChunkText

theorem countP_newlines_eq_count_take (text : List Char) (p : Nat) :
    (computeNewlinePositions text).countP (fun a => a < p) =
      (text.take p).count '\n' := by
  unfold computeNewlinePositions
  rw [List.countP_filter]
  induction text generalizing p with
  | nil => simp
  | cons a t ih =>
    rw [List.length_cons, List.range_succ_eq_map, List.countP_cons, List.countP_map]
    cases p with
    | zero =>
      simp only [List.take_zero, List.count_nil]
      have h0 : ∀ i ∈ List.range t.length,
          ¬(((fun j => decide (j < 0) && decide ((a :: t).getD j ' ' = '\n')) ∘ Nat.succ) i
            = true) := by
        intro i _
        simp
      rw [List.countP_eq_zero.mpr h0]
      simp
    | succ q =>
      rw [List.take_succ_cons, List.count_cons]
      have hcomp : ∀ i ∈ List.range t.length,
          (((fun j => decide (j < q + 1) && decide ((a :: t).getD j ' ' = '\n')) ∘ Nat.succ) i
              = true ↔
            (fun j => decide (j < q) && decide (t.getD j ' ' = '\n')) i = true) := by
        intro i _
        simp only [Function.comp_apply, List.getD_cons_succ]
        simp [Nat.succ_lt_succ_iff]
      rw [List.countP_congr hcomp, ih q]
      simp only [List.getD_cons_zero]
      by_cases ha : a = '\n'
      · simp [ha]
      · simp [ha, Ne.symm ha]

theorem lineNumberAt_mono (newlines : List Nat) {p q : Nat} (h : p ≤ q) :
    lineNumberAt newlines p ≤ lineNumberAt newlines q := by
  unfold lineNumberAt
  have hle := List.countP_mono_left
    (l := newlines) (p := fun a => decide (a < p)) (q := fun a => decide (a < q))
    (fun a _ ha => by
      simp only [decide_eq_true_eq] at ha ⊢
      omega)
  omega

end ChunkText

namespace Claims

/-- Claim C10: every emitted chunk's line range satisfies
`1 ≤ start_line ≤ end_line`.  In the character pipeline `start_line` is one
more than the number of newlines strictly before `start_char` and
`end_line` is the line number of offset `max start_char (end_char - 1)`,
which never precedes `start_char`; in the syntax-aware pipeline the lines
are the node's start and end rows, each incremented by 1 (there
`start_line ≤ end_line` rests on the tree-sitter guarantee that a node's
start point does not follow its end point, stated here as the hypothesis
`n.startRow ≤ n.endRow`). -/
theorem C10_line_ranges (enc : List Char → List Nat) (hashFn : List Nat → String) :
    (∀ text wouldOverwrite maxChars overlapChars force fuel trace chunks,
      ChunkText.chunkTextRun enc hashFn text wouldOverwrite maxChars overlapChars
          force fuel = (trace, .ok chunks) →
      ∀ c ∈ chunks,
        1 ≤ c.start_line ∧ c.start_line ≤ c.end_line ∧
        c.start_line = (text.take c.start_char).count '\n' + 1 ∧
        c.end_line =
          (text.take (max c.start_char (c.end_char - 1))).count '\n' + 1 ∧
        c.start_char ≤ max c.start_char (c.end_char - 1)) ∧
    (∀ data tree language relPath priorNames force trace chunks,
      SplitCode.splitCodeFile hashFn data tree language relPath priorNames force
          = (trace, .ok chunks) →
      ∀ c ∈ chunks, ∃ n ∈ SplitCode.topLevelChunks tree language,
        c.start_line = n.startRow + 1 ∧ c.end_line = n.endRow + 1 ∧
        1 ≤ c.start_line ∧
        (n.startRow ≤ n.endRow → c.start_line ≤ c.end_line)) := by
  constructor
  · intro text wov maxChars overlapChars force fuel trace chunks h c hc
    obtain ⟨spans, _, hchunks, _⟩ :=
      ChunkText.chunkTextRun_ok_elim enc hashFn text wov maxChars overlapChars
        force fuel trace chunks h
    subst hchunks
    obtain ⟨s, e, _, hs, he, hsl, hel, _, _⟩ :=
      ChunkText.emitChunks_shape enc hashFn text _ _ _ _ c hc
    subst hs he
    refine ⟨?_, ?_, ?_, ?_, ?_⟩
    · rw [hsl]; unfold ChunkText.lineNumberAt; omega
    · rw [hsl, hel]
      exact ChunkText.lineNumberAt_mono _ (Nat.le_max_left _ _)
    · rw [hsl]
      unfold ChunkText.lineNumberAt
      rw [ChunkText.countP_newlines_eq_count_take]
    · rw [hel]
      unfold ChunkText.lineNumberAt
      rw [ChunkText.countP_newlines_eq_count_take]
    · exact Nat.le_max_left _ _
  · intro data tree language relPath priorNames force trace chunks h c hc
    rcases SplitCode.splitCodeFile_ok_elim hashFn data tree language relPath
        priorNames force trace chunks h with ⟨_, _, hchunks⟩ | ⟨hchunks, _⟩
    · subst hchunks; cases hc
    · subst hchunks
      obtain ⟨n, hmem, _, _, hsl, hel, _, _, _⟩ :=
        SplitCode.emitCodeChunks_shape hashFn data language relPath _ _ _ c hc
      exact ⟨n, hmem, hsl, hel, by omega, fun hrow => by omega⟩

/-- Witness for claim C10: the theorem applied to one concrete successful
run of each pipeline. -/
theorem C10_line_ranges_witness :
    (1 ≤ (2 : Nat) ∧ (2 : Nat) ≤ 2 ∧
      (2 : Nat) = (('a' :: 'b' :: '\n' :: 'c' :: 'd' :: []).take 3).count '\n' + 1 ∧
      (2 : Nat) =
        (('a' :: 'b' :: '\n' :: 'c' :: 'd' :: []).take (max 3 (5 - 1))).count '\n' + 1 ∧
      (3 : Nat) ≤ max 3 (5 - 1)) ∧
    (∃ n ∈ SplitCode.topLevelChunks SplitCode.tinyTree "python",
      (1 : Nat) = n.startRow + 1 ∧ (1 : Nat) = n.endRow + 1 ∧
      1 ≤ (1 : Nat) ∧
      (n.startRow ≤ n.endRow → (1 : Nat) ≤ 1)) := by
  constructor
  · have h := (C10_line_ranges ChunkText.enc0 ChunkText.hashFn0).1
      ('a' :: 'b' :: '\n' :: 'c' :: 'd' :: []) false 3 0 false 10
      [ChunkText.FsEvent.readSource, ChunkText.FsEvent.mkdirOut,
       ChunkText.FsEvent.writeChunkFile "chunk_0001.txt" [97, 98, 10],
       ChunkText.FsEvent.writeChunkFile "chunk_0002.txt" [99, 100],
       ChunkText.FsEvent.writeIndex]
      [{ chunk_id := "chunk_0001", path := "chunk_0001.txt", start_char := 0,
         end_char := 3, start_line := 1, end_line := 1, sha256 := "205" },
       { chunk_id := "chunk_0002", path := "chunk_0002.txt", start_char := 3,
         end_char := 5, start_line := 2, end_line := 2, sha256 := "199" }]
      (by rfl)
      { chunk_id := "chunk_0002", path := "chunk_0002.txt", start_char := 3,
        end_char := 5, start_line := 2, end_line := 2, sha256 := "199" }
      (by decide)
    exact h
  · have h := (C10_line_ranges ChunkText.enc0 ChunkText.hashFn0).2
      [10, 20, 30, 40, 50] SplitCode.tinyTree "python" "m.py" [] false
      [ChunkText.FsEvent.mkdirChunkDir,
       ChunkText.FsEvent.writeChunkFile "chunk_0001.txt" [20, 30, 40],
       ChunkText.FsEvent.writeIndex]
      [{ chunk_id := "m.py::chunk_0001", source_file := "m.py",
         language := "python", node_type := "function_definition",
         start_line := 1, end_line := 1, start_byte := 1, end_byte := 4,
         path := "chunk_0001.txt", sha256 := "90" }]
      (by rfl)
      { chunk_id := "m.py::chunk_0001", source_file := "m.py",
        language := "python", node_type := "function_definition",
        start_line := 1, end_line := 1, start_byte := 1, end_byte := 4,
        path := "chunk_0001.txt", sha256 := "90" }
      (by decide)
    exact h

end Claims

namespace ChunkText

theorem emitChunkEvents_no_removePrior (enc : List Char → List Nat)
    (text : List Char) (width : Nat) :
    ∀ (i : Nat) (spans : List (Nat × Nat)) (name : String),
      FsEvent.removePrior name ∉ emitChunkEvents enc text width i spans := by
  intro i spans
  induction spans generalizing i with
  | nil => intro name h; simp [emitChunkEvents] at h
  | cons p rest ih =>
    obtain ⟨s, e⟩ := p
    intro name h
    simp only [emitChunkEvents, List.mem_cons] at h
    rcases h with h | h
    · cases h
    · exact ih (i + 1) name h

theorem chunkTextRun_no_removePrior (enc : List Char → List Nat)
    (hashFn : List Nat → String) (text : List Char) (wouldOverwrite : Bool)
    (maxChars overlapChars : Int) (force : Bool) (fuel : Nat) (name : String) :
    FsEvent.removePrior name ∉
      (chunkTextRun enc hashFn text wouldOverwrite maxChars overlapChars force fuel).1 := by
  unfold chunkTextRun
  split
  · intro h; simp at h
  · split
    · intro h; simp at h
    · split
      · intro h; simp at h
      · split
        · intro h; simp at h
        · split
          · intro h; simp at h
          · intro h
            simp only [List.append_assoc, List.cons_append, List.nil_append,
              List.mem_cons, List.mem_append] at h
            rcases h with h | h | h | h | h
            · cases h
            · cases h
            · exact emitChunkEvents_no_removePrior enc text _ _ _ name h
            · cases h
            · cases h

end ChunkText

namespace Claims

/-- Counterexample for claim C5: with `max_chars = 0` the character pipeline
does raise the invalid-configuration error, but only after the source has
been read and `_safe_mkdir(out_dir)` has already created the output
directory (chunk_text.py line 111 runs before the validation inside
`_iter_chunk_spans`, line 119); the claim's assertion that the error comes
before any I/O and that no output directory is created is false. -/
theorem C5_counterexample :
    ChunkText.chunkTextRun ChunkText.enc0 ChunkText.hashFn0 ('a' :: []) false 0 0 false 10 =
      ([ChunkText.FsEvent.readSource, ChunkText.FsEvent.mkdirOut],
       Except.error ChunkText.ChunkErr.badMaxChars) ∧
    ChunkText.FsEvent.mkdirOut ∈
      (ChunkText.chunkTextRun ChunkText.enc0 ChunkText.hashFn0 ('a' :: []) false 0 0 false 10).1 :=
  ⟨rfl, by decide⟩

/-- Claim C5 as amended: for an invalid configuration
(`max_chars ≤ 0` or `overlap_chars ≥ max_chars`), provided the pre-existing
chunk check does not preempt it (that check runs first), `chunk_text` fails
with an invalid-configuration error and writes no chunk file and no index -
but only after reading the source and creating the output directory, whose
creation therefore does happen even on invalid configurations. -/
theorem C5_invalid_config (enc : List Char → List Nat)
    (hashFn : List Nat → String) (text : List Char) (wouldOverwrite : Bool)
    (maxChars overlapChars : Int) (force : Bool) (fuel : Nat)
    (hpre : ¬(wouldOverwrite = true ∧ ¬(force = true)))
    (hbad : maxChars ≤ 0 ∨ maxChars ≤ overlapChars) :
    ((ChunkText.chunkTextRun enc hashFn text wouldOverwrite maxChars overlapChars
        force fuel).2 = .error .badMaxChars ∨
     (ChunkText.chunkTextRun enc hashFn text wouldOverwrite maxChars overlapChars
        force fuel).2 = .error .overlapTooBig) ∧
    (ChunkText.chunkTextRun enc hashFn text wouldOverwrite maxChars overlapChars
        force fuel).1 = [ChunkText.FsEvent.readSource, ChunkText.FsEvent.mkdirOut] := by
  unfold ChunkText.chunkTextRun
  rw [if_neg hpre]
  by_cases hM : maxChars ≤ 0
  · rw [if_pos hM]
    exact ⟨Or.inl rfl, rfl⟩
  · have hMV : maxChars ≤ overlapChars := hbad.resolve_left hM
    have hVneg : ¬(overlapChars < 0) := by omega
    rw [if_neg hM, if_neg hVneg, if_pos hMV]
    exact ⟨Or.inr rfl, rfl⟩

/-- Witness for amended claim C5 at a concrete invalid configuration. -/
theorem C5_invalid_config_witness :
    ((ChunkText.chunkTextRun ChunkText.enc0 ChunkText.hashFn0
        ('h' :: 'i' :: []) false 4 7 false 10).2 =
          .error ChunkText.ChunkErr.badMaxChars ∨
     (ChunkText.chunkTextRun ChunkText.enc0 ChunkText.hashFn0
        ('h' :: 'i' :: []) false 4 7 false 10).2 =
          .error ChunkText.ChunkErr.overlapTooBig) ∧
    (ChunkText.chunkTextRun ChunkText.enc0 ChunkText.hashFn0
        ('h' :: 'i' :: []) false 4 7 false 10).1 =
      [ChunkText.FsEvent.readSource, ChunkText.FsEvent.mkdirOut] :=
  C5_invalid_config ChunkText.enc0 ChunkText.hashFn0 ('h' :: 'i' :: [])
    false 4 7 false 10 (by simp) (by omega)

end Claims

namespace Claims

/-- Counterexample for claim C6: prior chunk artifacts exist
(`wouldOverwrite = true`, a prior `chunk_0001.txt`) and the force flag is
set, yet the character pipeline's full event trace contains no removal of
prior artifacts: it proceeds straight to overwriting by name, so the
claim's "prior chunk artifacts are first removed" is false for
`chunk_text`. -/
theorem C6_counterexample :
    ChunkText.chunkTextRun ChunkText.enc0 ChunkText.hashFn0
        ('h' :: 'i' :: []) true 5 1 true 10 =
      ([ChunkText.FsEvent.readSource, ChunkText.FsEvent.mkdirOut,
        ChunkText.FsEvent.writeChunkFile "chunk_0001.txt" [104, 105],
        ChunkText.FsEvent.writeIndex],
       Except.ok
         [{ chunk_id := "chunk_0001", path := "chunk_0001.txt",
            start_char := 0, end_char := 2, start_line := 1, end_line := 1,
            sha256 := "209" }]) ∧
    ChunkText.FsEvent.removePrior "chunk_0001.txt" ∉
      (ChunkText.chunkTextRun ChunkText.enc0 ChunkText.hashFn0
        ('h' :: 'i' :: []) true 5 1 true 10).1 :=
  ⟨rfl, by decide⟩

/-- Claim C6 as amended: in both pipelines, when prior chunk artifacts
exist and the force flag is not set the run fails before writing any chunk
file or manifest for that unit.  With the force flag the syntax-aware
pipeline first removes every prior clear target (`chunk_*.txt` and
`index.json`) and then emits; the character pipeline, by contrast, removes
nothing under force - it merely skips the refusal check and overwrites by
file name. -/
theorem C6_overwrite_policy (enc : List Char → List Nat)
    (hashFn : List Nat → String) :
    (∀ text maxChars overlapChars fuel,
      ChunkText.chunkTextRun enc hashFn text true maxChars overlapChars false fuel =
        ([ChunkText.FsEvent.readSource, ChunkText.FsEvent.mkdirOut],
         .error .existingChunks)) ∧
    (∀ text wouldOverwrite maxChars overlapChars force fuel name,
      ChunkText.FsEvent.removePrior name ∉
        (ChunkText.chunkTextRun enc hashFn text wouldOverwrite maxChars
          overlapChars force fuel).1) ∧
    (∀ text maxChars overlapChars fuel,
      (ChunkText.chunkTextRun enc hashFn text true maxChars overlapChars
          true fuel).2 ≠ .error .existingChunks) ∧
    (∀ data tree language relPath priorNames,
      SplitCode.topLevelChunks tree language ≠ [] →
      priorNames.any SplitCode.isChunkFileName = true →
      SplitCode.splitCodeFile hashFn data tree language relPath priorNames false =
        ([ChunkText.FsEvent.mkdirChunkDir], .error .priorChunks)) ∧
    (∀ data tree language relPath priorNames trace chunks,
      SplitCode.splitCodeFile hashFn data tree language relPath priorNames true =
        (trace, .ok chunks) →
      (trace = [] ∧ chunks = []) ∨
      trace = [ChunkText.FsEvent.mkdirChunkDir] ++
        (priorNames.filter SplitCode.isClearTarget).map ChunkText.FsEvent.removePrior ++
        SplitCode.emitCodeChunkEvents data
          (max 4 (Nat.repr (SplitCode.topLevelChunks tree language).length).length) 1
          (SplitCode.topLevelChunks tree language) ++
        [ChunkText.FsEvent.writeIndex]) := by
  refine ⟨?_, ?_, ?_, ?_, ?_⟩
  · intro text maxChars overlapChars fuel
    unfold ChunkText.chunkTextRun
    rw [if_pos ⟨rfl, by simp⟩]
  · intro text wov maxChars overlapChars force fuel name
    exact ChunkText.chunkTextRun_no_removePrior enc hashFn text wov maxChars
      overlapChars force fuel name
  · intro text maxChars overlapChars fuel
    unfold ChunkText.chunkTextRun
    rw [if_neg (by simp)]
    split
    · simp
    · split
      · simp
      · split
        · simp
        · split
          · simp
          · simp
  · intro data tree language relPath priorNames hne hany
    unfold SplitCode.splitCodeFile
    rw [if_neg (fun hemp => hne (List.isEmpty_iff.mp hemp))]
    rw [if_pos ⟨by simp, hany⟩]
  · intro data tree language relPath priorNames trace chunks h
    rcases SplitCode.splitCodeFile_ok_elim hashFn data tree language relPath
        priorNames true trace chunks h with ⟨_, htr, hch⟩ | ⟨_, htrace⟩
    · exact Or.inl ⟨htr, hch⟩
    · right
      rw [htrace]
      simp

/-- Witness for amended claim C6: its refusal and clear-then-emit parts
applied at concrete runs of both pipelines. -/
theorem C6_overwrite_policy_witness :
    (ChunkText.chunkTextRun ChunkText.enc0 ChunkText.hashFn0
        ('x' :: []) true 5 1 false 3 =
      ([ChunkText.FsEvent.readSource, ChunkText.FsEvent.mkdirOut],
       .error .existingChunks)) ∧
    (SplitCode.splitCodeFile ChunkText.hashFn0 [10, 20, 30, 40, 50]
        SplitCode.tinyTree "python" "m.py" ["chunk_0001.txt"] false =
      ([ChunkText.FsEvent.mkdirChunkDir], .error .priorChunks)) ∧
    ((([ChunkText.FsEvent.mkdirChunkDir,
       ChunkText.FsEvent.removePrior "chunk_0001.txt",
       ChunkText.FsEvent.writeChunkFile "chunk_0001.txt" [20, 30, 40],
       ChunkText.FsEvent.writeIndex] : List ChunkText.FsEvent) = [] ∧
       ([{ chunk_id := "m.py::chunk_0001", source_file := "m.py",
           language := "python", node_type := "function_definition",
           start_line := 1, end_line := 1, start_byte := 1, end_byte := 4,
           path := "chunk_0001.txt", sha256 := "90" }] : List SplitCode.CodeChunk) = []) ∨
    ([ChunkText.FsEvent.mkdirChunkDir,
      ChunkText.FsEvent.removePrior "chunk_0001.txt",
      ChunkText.FsEvent.writeChunkFile "chunk_0001.txt" [20, 30, 40],
      ChunkText.FsEvent.writeIndex] : List ChunkText.FsEvent) =
        [ChunkText.FsEvent.mkdirChunkDir] ++
        ((["chunk_0001.txt", "notes.md"].filter SplitCode.isClearTarget).map
          ChunkText.FsEvent.removePrior) ++
        SplitCode.emitCodeChunkEvents [10, 20, 30, 40, 50]
          (max 4 (Nat.repr (SplitCode.topLevelChunks SplitCode.tinyTree "python").length).length)
          1 (SplitCode.topLevelChunks SplitCode.tinyTree "python") ++
        [ChunkText.FsEvent.writeIndex]) := by
  refine ⟨?_, ?_, ?_⟩
  · exact (C6_overwrite_policy ChunkText.enc0 ChunkText.hashFn0).1 ('x' :: []) 5 1 3
  · exact (C6_overwrite_policy ChunkText.enc0 ChunkText.hashFn0).2.2.2.1
      [10, 20, 30, 40, 50] SplitCode.tinyTree "python" "m.py" ["chunk_0001.txt"]
      (by
        intro hx
        have hv : SplitCode.topLevelChunks SplitCode.tinyTree "python" =
            [SplitCode.TsNode.node "function_definition" 1 4 0 0 []] := rfl
        rw [hv] at hx
        cases hx)
      (by rfl)
  · exact (C6_overwrite_policy ChunkText.enc0 ChunkText.hashFn0).2.2.2.2
      [10, 20, 30, 40, 50] SplitCode.tinyTree "python" "m.py"
      ["chunk_0001.txt", "notes.md"]
      [ChunkText.FsEvent.mkdirChunkDir,
       ChunkText.FsEvent.removePrior "chunk_0001.txt",
       ChunkText.FsEvent.writeChunkFile "chunk_0001.txt" [20, 30, 40],
       ChunkText.FsEvent.writeIndex]
      [{ chunk_id := "m.py::chunk_0001", source_file := "m.py",
         language := "python", node_type := "function_definition",
         start_line := 1, end_line := 1, start_byte := 1, end_byte := 4,
         path := "chunk_0001.txt", sha256 := "90" }]
      (by rfl)

end Claims

namespace ChunkText

theorem rfindNewline_none_of_no_newline (text : List Char)
    (hnl : '\n' ∉ text) : ∀ (start stop : Nat),
    rfindNewline text start stop = none := by
  intro start stop
  induction stop with
  | zero => rfl
  | succ stop ih =>
    rw [rfindNewline]
    by_cases h1 : stop < start
    · rw [if_pos h1]
    · rw [if_neg h1]
      have h2 : ¬(stop < text.length ∧ text.getD stop ' ' = '\n') := by
        rintro ⟨hlt, heq⟩
        apply hnl
        rw [← heq]
        rw [List.getD_eq_getElem text ' ' hlt]
        exact List.getElem_mem hlt
      rw [if_neg h2]
      exact ih

end ChunkText

namespace Claims

/-- Claim C2 is refuted by the code: on the eleven-character text
`"aaaaaa\nbbbb"` with the valid configuration `max_chars = 10`,
`overlap_chars = 9`, the loop of `_iter_chunk_spans` never terminates.
From `start = 0` it snaps the end to the newline (`end = 7 > start`, so
the forward-progress guard does not fire), appends span `(0, 7)` and sets
`start = max(0, 7 - 9) = 0` again, forever: the fuelled embedding returns
`none` for every fuel. -/
theorem C2_loop_diverges (fuel : Nat) :
    ChunkText.iterChunkSpansAux ChunkText.pathologicalText 10 9 fuel 0 = none := by
  induction fuel with
  | zero => rfl
  | succ f ih =>
    have hch : ChunkText.chooseChunkEnd ChunkText.pathologicalText 0
        (min (0 + 10) ChunkText.pathologicalText.length) = 7 := by decide
    rw [ChunkText.iterChunkSpansAux]
    rw [if_neg (by decide)]
    simp only [hch]
    norm_num [ChunkText.pathologicalText]
    simp only [ChunkText.pathologicalText] at ih
    rw [ih]

end Claims

namespace Claims

/-- Claim C4: for any 1000-character text with no newline, run with
`max_chars = 400` and `overlap_chars = 50`, `_iter_chunk_spans` returns
exactly the spans `(0, 400)`, `(350, 750)`, `(700, 1000)`, and `chunk_text`
assigns them the identifiers `chunk_0001`, `chunk_0002`, `chunk_0003`
(zero-padded to width `max 4 (len (str 3)) = 4`). -/
theorem C4_thousand_char_example (enc : List Char → List Nat)
    (hashFn : List Nat → String) (text : List Char)
    (hlen : text.length = 1000) (hnl : '\n' ∉ text) (fuel : Nat)
    (hfuel : 3 ≤ fuel) :
    ChunkText.iterChunkSpansAux text 400 50 fuel 0 =
      some [(0, 400), (350, 750), (700, 1000)] ∧
    (∀ wouldOverwrite force trace chunks,
      ChunkText.chunkTextRun enc hashFn text wouldOverwrite 400 50 force fuel =
        (trace, .ok chunks) →
      chunks.map ChunkText.Chunk.chunk_id =
        ["chunk_0001", "chunk_0002", "chunk_0003"]) := by
  have hrf := ChunkText.rfindNewline_none_of_no_newline text hnl
  have hc1 : ChunkText.chooseChunkEnd text 0 400 = 400 := by
    unfold ChunkText.chooseChunkEnd
    rw [hlen, if_neg (by norm_num), hrf 0 400]
  have hc2 : ChunkText.chooseChunkEnd text 350 750 = 750 := by
    unfold ChunkText.chooseChunkEnd
    rw [hlen, if_neg (by norm_num), hrf 350 750]
  have hc3 : ChunkText.chooseChunkEnd text 700 1000 = 1000 := by
    unfold ChunkText.chooseChunkEnd
    rw [hlen, if_pos (by norm_num)]
  have hspans : ChunkText.iterChunkSpansAux text 400 50 fuel 0 =
      some [(0, 400), (350, 750), (700, 1000)] := by
    obtain ⟨g, rfl⟩ : ∃ g, fuel = g + 3 := ⟨fuel - 3, by omega⟩
    rw [ChunkText.iterChunkSpansAux]
    rw [if_neg (by rw [hlen]; norm_num)]
    rw [hlen]
    norm_num [hc1]
    rw [ChunkText.iterChunkSpansAux]
    rw [if_neg (by rw [hlen]; norm_num)]
    rw [hlen]
    norm_num [hc2]
    rw [ChunkText.iterChunkSpansAux]
    rw [if_neg (by rw [hlen]; norm_num)]
    rw [hlen]
    norm_num [hc3]
  refine ⟨hspans, ?_⟩
  intro wov force trace chunks h
  obtain ⟨spans, hsp, hchunks, _⟩ :=
    ChunkText.chunkTextRun_ok_elim enc hashFn text wov 400 50 force fuel
      trace chunks h
  have htn : ((400 : Int).toNat) = 400 := rfl
  have htn2 : ((50 : Int).toNat) = 50 := rfl
  rw [htn, htn2, hspans] at hsp
  have hsp2 : spans = [(0, 400), (350, 750), (700, 1000)] :=
    Option.some.inj hsp.symm
  subst hsp2
  subst hchunks
  rfl

/-- Witness for claim C4 at the concrete text of 1000 repeated `'a'`. -/
theorem C4_thousand_char_example_witness :
    ChunkText.iterChunkSpansAux (List.replicate 1000 'a') 400 50 10 0 =
      some [(0, 400), (350, 750), (700, 1000)] ∧
    (∀ wouldOverwrite force trace chunks,
      ChunkText.chunkTextRun ChunkText.enc0 ChunkText.hashFn0
          (List.replicate 1000 'a') wouldOverwrite 400 50 force 10 =
        (trace, .ok chunks) →
      chunks.map ChunkText.Chunk.chunk_id =
        ["chunk_0001", "chunk_0002", "chunk_0003"]) :=
  C4_thousand_char_example ChunkText.enc0 ChunkText.hashFn0
    (List.replicate 1000 'a') (by rw [List.length_replicate])
    (by rw [List.mem_replicate]; rintro ⟨-, h⟩; cases h)
    10 (by norm_num)

end Claims

namespace ChunkText

theorem rfindNewline_some_iff (text : List Char) (start : Nat) :
    ∀ (stop nl : Nat),
      (rfindNewline text start stop = some nl ↔
        (start ≤ nl ∧ nl < stop ∧ nl < text.length ∧ text.getD nl ' ' = '\n' ∧
         ∀ j, nl < j → j < stop → j < text.length → text.getD j ' ' ≠ '\n')) := by
  intro stop
  induction stop with
  | zero =>
    intro nl
    simp only [rfindNewline]
    constructor
    · intro h; exact Option.noConfusion h
    · rintro ⟨-, h, -⟩; omega
  | succ stop ih =>
    intro nl
    rw [rfindNewline]
    by_cases h1 : stop < start
    · rw [if_pos h1]
      constructor
      · intro h; exact Option.noConfusion h
      · rintro ⟨ha, hb, -⟩
        exfalso; omega
    · rw [if_neg h1]
      by_cases h2 : stop < text.length ∧ text.getD stop ' ' = '\n'
      · rw [if_pos h2]
        constructor
        · intro h
          have hns : nl = stop := (Option.some.inj h).symm
          subst hns
          refine ⟨by omega, by omega, h2.1, h2.2, ?_⟩
          intro j hj1 hj2 _
          exact absurd hj1 (by omega)
        · rintro ⟨ha, hb, hc, hd, hmax⟩
          by_cases hne : nl = stop
          · subst hne; rfl
          · exfalso
            exact hmax stop (by omega) (by omega) h2.1 h2.2
      · rw [if_neg h2]
        rw [ih nl]
        constructor
        · rintro ⟨ha, hb, hc, hd, hmax⟩
          refine ⟨ha, by omega, hc, hd, ?_⟩
          intro j hj1 hj2 hj3
          by_cases hjs : j = stop
          · subst hjs
            intro heq
            exact h2 ⟨hj3, heq⟩
          · exact hmax j hj1 (by omega) hj3
        · rintro ⟨ha, hb, hc, hd, hmax⟩
          have hlt : nl < stop := by
            rcases Nat.lt_or_ge nl stop with h | h
            · exact h
            · exfalso
              have hns : nl = stop := by omega
              subst hns
              exact h2 ⟨hc, hd⟩
          exact ⟨ha, hlt, hc, hd, fun j hj1 hj2 hj3 => hmax j hj1 (by omega) hj3⟩

theorem rfindNewline_none_imp (text : List Char) (start : Nat) :
    ∀ (stop : Nat), rfindNewline text start stop = none →
      ∀ j, start ≤ j → j < stop → j < text.length → text.getD j ' ' ≠ '\n' := by
  intro stop
  induction stop with
  | zero => intro _ j _ hj _; omega
  | succ stop ih =>
    intro h j hj1 hj2 hj3
    rw [rfindNewline] at h
    by_cases h1 : stop < start
    · exfalso; omega
    · rw [if_neg h1] at h
      by_cases h2 : stop < text.length ∧ text.getD stop ' ' = '\n'
      · rw [if_pos h2] at h
        exact Option.noConfusion h
      · rw [if_neg h2] at h
        by_cases hjs : j = stop
        · subst hjs
          intro heq
          exact h2 ⟨hj3, heq⟩
        · exact ih h j hj1 (by omega) hj3

end ChunkText

namespace ChunkText

theorem chooseChunkEnd_gt_start (text : List Char) (M s : Nat) (hM : 0 < M)
    (hs : s < text.length) :
    s < chooseChunkEnd text s (min (s + M) text.length) := by
  unfold chooseChunkEnd
  by_cases hle : text.length ≤ min (s + M) text.length
  · rw [if_pos hle]
    exact hs
  · rw [if_neg hle]
    cases hrf : rfindNewline text s (min (s + M) text.length) with
    | none =>
      simp only []
      omega
    | some nl =>
      have hnl := (rfindNewline_some_iff text s (min (s + M) text.length) nl).mp hrf
      simp only []
      by_cases hsnap : s + floatMul06 (min (s + M) text.length - s) ≤ nl
      · rw [if_pos hsnap]
        omega
      · rw [if_neg hsnap]
        omega

theorem chooseChunkEnd_le_len (text : List Char) (s he : Nat)
    (hhe : he ≤ text.length) :
    chooseChunkEnd text s he ≤ text.length := by
  unfold chooseChunkEnd
  by_cases hle : text.length ≤ he
  · rw [if_pos hle]
  · rw [if_neg hle]
    cases hrf : rfindNewline text s he with
    | none =>
      simp only []
      exact hhe
    | some nl =>
      have hnl := (rfindNewline_some_iff text s he nl).mp hrf
      simp only []
      by_cases hsnap : s + floatMul06 (he - s) ≤ nl
      · rw [if_pos hsnap]
        omega
      · rw [if_neg hsnap]
        exact hhe

end ChunkText

namespace ChunkText

theorem chooseChunkEnd_step (text : List Char) (M s : Nat) (hM : 0 < M)
    (hs : s < text.length)
    (hlt : chooseChunkEnd text s (min (s + M) text.length) < text.length) :
    s + M < text.length ∧
    ((∃ nl, rfindNewline text s (s + M) = some nl ∧
        s + floatMul06 M ≤ nl ∧ s ≤ nl ∧ nl < s + M ∧
        text.getD nl ' ' = '\n' ∧
        (∀ j, nl < j → j < s + M → text.getD j ' ' ≠ '\n') ∧
        chooseChunkEnd text s (min (s + M) text.length) = nl + 1) ∨
     (chooseChunkEnd text s (min (s + M) text.length) = s + M ∧
      ∀ p, s + floatMul06 M ≤ p → p < s + M → text.getD p ' ' ≠ '\n')) := by
  have hsm : s + M < text.length := by
    by_contra hge
    have hmin : min (s + M) text.length = text.length := by omega
    rw [hmin] at hlt
    unfold chooseChunkEnd at hlt
    rw [if_pos (Nat.le_refl _)] at hlt
    omega
  refine ⟨hsm, ?_⟩
  have hmin : min (s + M) text.length = s + M := by omega
  rw [hmin] at hlt ⊢
  have hKe : (s + M) - s = M := by omega
  unfold chooseChunkEnd at hlt ⊢
  rw [if_neg (by omega)] at hlt ⊢
  rw [hKe] at hlt ⊢
  cases hrf : rfindNewline text s (s + M) with
  | none =>
    right
    simp only []
    refine ⟨by trivial, ?_⟩
    intro p hp1 hp2
    exact rfindNewline_none_imp text s (s + M) hrf p (by omega) hp2 (by omega)
  | some nl =>
    have hnl := (rfindNewline_some_iff text s (s + M) nl).mp hrf
    obtain ⟨ha, hb, hc, hd, hmax⟩ := hnl
    simp only [] at hlt ⊢
    by_cases hsnap : s + floatMul06 M ≤ nl
    · left
      rw [if_pos hsnap]
      exact ⟨nl, rfl, hsnap, ha, hb, hd,
        fun j hj1 hj2 => hmax j hj1 hj2 (by omega), rfl⟩
    · right
      rw [if_neg hsnap]
      refine ⟨rfl, ?_⟩
      intro p hp1 hp2
      by_cases hpn : p ≤ nl
      · exfalso; omega
      · exact hmax p (by omega) hp2 (by omega)

end ChunkText

namespace ChunkText

theorem chooseChunkEnd_snap_eval (text : List Char) (M s nl : Nat)
    (hsm : s + M < text.length)
    (hrf : rfindNewline text s (s + M) = some nl)
    (hsnap : s + floatMul06 M ≤ nl) :
    chooseChunkEnd text s (min (s + M) text.length) = nl + 1 := by
  have hmin : min (s + M) text.length = s + M := by omega
  rw [hmin]
  unfold chooseChunkEnd
  rw [if_neg (by omega)]
  rw [show s + M - s = M by omega]
  rw [hrf]
  simp only []
  rw [if_pos hsnap]

theorem aux_stuck (text : List Char) (M V : Nat) (hM : 0 < M) (hV : V < M)
    (s nl : Nat) (hs : s < text.length)
    (hsm : s + M < text.length)
    (hrf : rfindNewline text s (s + M) = some nl)
    (hsnap : s + floatMul06 M ≤ nl)
    (hle : s ≤ nl) (hnl_lt : nl < s + M)
    (hnd : text.getD nl ' ' = '\n')
    (hmax : ∀ j, nl < j → j < s + M → text.getD j ' ' ≠ '\n')
    (hnoprog : nl + 1 - V ≤ s) :
    ∀ fuel, iterChunkSpansAux text M V fuel (nl + 1 - V) = none := by
  have hV1 : 1 ≤ V := by omega
  have hs' : nl + 1 - V ≤ s := hnoprog
  have hrf2 : rfindNewline text (nl + 1 - V) ((nl + 1 - V) + M) = some nl := by
    rw [rfindNewline_some_iff]
    refine ⟨by omega, by omega, by omega, hnd, ?_⟩
    intro j hj1 hj2 hj3
    exact hmax j hj1 (by omega)
  have hch : chooseChunkEnd text (nl + 1 - V)
      (min ((nl + 1 - V) + M) text.length) = nl + 1 :=
    chooseChunkEnd_snap_eval text M (nl + 1 - V) nl (by omega) hrf2 (by omega)
  intro fuel
  induction fuel with
  | zero => rfl
  | succ f ih =>
    rw [iterChunkSpansAux]
    rw [if_neg (by omega)]
    simp only [hch]
    rw [if_neg (show ¬(nl + 1 ≤ nl + 1 - V) by omega)]
    rw [if_neg (show ¬(nl + 1 ≤ nl + 1 - V) by omega)]
    rw [if_neg (show ¬(text.length ≤ nl + 1) by omega)]
    rw [ih]

end ChunkText

namespace ChunkText

theorem chooseChunkEnd_mono_next (text : List Char) (M V : Nat) (hM : 0 < M)
    (hV : V < M) (s : Nat) (hs : s < text.length)
    (helt : chooseChunkEnd text s (min (s + M) text.length) < text.length)
    (hprog : s < chooseChunkEnd text s (min (s + M) text.length) - V) :
    chooseChunkEnd text s (min (s + M) text.length) ≤
      chooseChunkEnd text (chooseChunkEnd text s (min (s + M) text.length) - V)
        (min (chooseChunkEnd text s (min (s + M) text.length) - V + M) text.length) := by
  obtain ⟨hsm, hcases⟩ := chooseChunkEnd_step text M s hM hs helt
  set e := chooseChunkEnd text s (min (s + M) text.length) with he_def
  have hs2 : e - V < text.length := by omega
  by_cases hlt2 : chooseChunkEnd text (e - V) (min (e - V + M) text.length) <
      text.length
  · obtain ⟨hsm2, hcases2⟩ := chooseChunkEnd_step text M (e - V) hM hs2 hlt2
    rcases hcases2 with ⟨nl2, hrf2, hsnap2, hle2, hlt22, hnd2, hmax2, hres2⟩ |
      ⟨hres2, hnone2⟩
    · rcases hcases with ⟨nl, hrfS, hsnapS, hleS, hltS, hndS, hmaxS, hresS⟩ |
        ⟨hresS, hnoneS⟩
      · by_cases hV0 : V = 0
        · subst hV0
          have hgt := chooseChunkEnd_gt_start text M (e - 0) hM (by omega)
          omega
        · have hVpos : 1 ≤ V := by omega
          have hnl_ge : nl ≤ nl2 := by
            by_contra hgt
            push_neg at hgt
            exact hmax2 nl hgt (by omega) hndS
          omega
      · have hnl2_ge : s + M ≤ nl2 := by
          by_contra hgt
          push_neg at hgt
          exact hnoneS nl2 (by omega) hgt hnd2
        omega
    · omega
  · have hle2 := chooseChunkEnd_le_len text (e - V) (min (e - V + M) text.length)
      (by omega)
    omega

end ChunkText

namespace ChunkText

theorem aux_invariant (text : List Char) (M V : Nat) (hM : 0 < M) (hV : V < M) :
    ∀ (fuel s : Nat) (spans : List (Nat × Nat)),
      iterChunkSpansAux text M V fuel s = some spans →
      s < text.length →
      spans ≠ [] ∧
      spans.head?.map Prod.fst = some s ∧
      spans.head?.map Prod.snd =
        some (chooseChunkEnd text s (min (s + M) text.length)) ∧
      spans.getLast?.map Prod.snd = some text.length ∧
      (∀ p ∈ spans, s ≤ p.1 ∧ p.1 < p.2 ∧ p.2 ≤ text.length) ∧
      List.Chain' (fun a b =>
        a.1 < b.1 ∧ b.1 ≤ a.2 ∧ a.2 ≤ b.2 ∧ a.2 - b.1 ≤ V) spans := by
  intro fuel
  induction fuel with
  | zero =>
    intro s spans h hs
    exact absurd h (by rw [iterChunkSpansAux]; exact Option.noConfusion)
  | succ f ih =>
    intro s spans h hs
    have hegt : s < chooseChunkEnd text s (min (s + M) text.length) :=
      chooseChunkEnd_gt_start text M s hM hs
    have hele : chooseChunkEnd text s (min (s + M) text.length) ≤ text.length :=
      chooseChunkEnd_le_len text s _ (by omega)
    rw [iterChunkSpansAux] at h
    rw [if_neg (by omega)] at h
    simp only [] at h
    rw [if_neg (show
      ¬(chooseChunkEnd text s (min (s + M) text.length) ≤ s) by omega)] at h
    rw [if_neg (show
      ¬(chooseChunkEnd text s (min (s + M) text.length) ≤ s) by omega)] at h
    set e := chooseChunkEnd text s (min (s + M) text.length) with he_def
    by_cases hlen2 : text.length ≤ e
    · rw [if_pos hlen2] at h
      have hsp : spans = [(s, e)] := (Option.some.inj h).symm
      subst hsp
      have helen : e = text.length := by omega
      refine ⟨by simp, by simp, by simp, by simp [helen], ?_, by simp⟩
      intro p hp
      rw [List.mem_singleton] at hp
      subst hp
      exact ⟨Nat.le_refl _, hegt, hele⟩
    · rw [if_neg hlen2] at h
      have helt : e < text.length := by omega
      cases haux : iterChunkSpansAux text M V f (e - V) with
      | none =>
        rw [haux] at h
        exact absurd h (by exact Option.noConfusion)
      | some rest =>
        rw [haux] at h
        have hsp : spans = (s, e) :: rest := (Option.some.inj h).symm
        subst hsp
        have hprog : s < e - V := by
          by_contra hnp
          push_neg at hnp
          obtain ⟨hsm, hcases⟩ := chooseChunkEnd_step text M s hM hs helt
          rcases hcases with ⟨nl, hrfS, hsnapS, hleS, hltS, hndS, hmaxS, hresS⟩ |
            ⟨hresS, -⟩
          · have hstuck := aux_stuck text M V hM hV s nl hs hsm hrfS hsnapS
              hleS hltS hndS hmaxS (by omega)
            rw [he_def, hresS] at haux
            rw [hstuck f] at haux
            exact Option.noConfusion haux
          · omega
        have hs2 : e - V < text.length := by omega
        obtain ⟨hne, hhead1, hhead2, hlast, hbounds, hchain⟩ :=
          ih (e - V) rest haux hs2
        cases rest with
        | nil => exact absurd rfl hne
        | cons r rs =>
          have hr1 : r.1 = e - V := by
            simp only [List.head?_cons, Option.map_some] at hhead1
            exact (Option.some.inj hhead1)
          have hr2 : r.2 = chooseChunkEnd text (e - V)
              (min (e - V + M) text.length) := by
            simp only [List.head?_cons, Option.map_some] at hhead2
            exact (Option.some.inj hhead2)
          have hmono := chooseChunkEnd_mono_next text M V hM hV s hs helt hprog
          rw [← he_def] at hmono
          refine ⟨by simp, by simp, by simp, ?_, ?_, ?_⟩
          · rw [List.getLast?_cons_cons]
            exact hlast
          · intro p hp
            rcases List.mem_cons.mp hp with hpe | hpr
            · subst hpe
              exact ⟨Nat.le_refl _, hegt, hele⟩
            · obtain ⟨hb1, hb2, hb3⟩ := hbounds p hpr
              exact ⟨by omega, hb2, hb3⟩
          · rw [List.chain'_cons]
            refine ⟨⟨by omega, by omega, ?_, by omega⟩, hchain⟩
            rw [hr2]
            exact hmono

end ChunkText

namespace ChunkText

theorem chain_coverage :
    ∀ (spans : List (Nat × Nat)) (s0 L q : Nat),
      spans.head?.map Prod.fst = some s0 →
      spans.getLast?.map Prod.snd = some L →
      (∀ p ∈ spans, p.1 < p.2) →
      List.Chain' (fun a b => b.1 ≤ a.2) spans →
      s0 ≤ q → q < L →
      ∃ p ∈ spans, p.1 ≤ q ∧ q < p.2 := by
  intro spans
  induction spans with
  | nil =>
    intro s0 L q h1
    exact absurd h1 (by simp)
  | cons a t ih =>
    intro s0 L q h1 h2 h3 h4 hq1 hq2
    have ha1 : a.1 = s0 := by
      simp only [List.head?_cons, Option.map_some] at h1
      exact Option.some.inj h1
    by_cases hq : q < a.2
    · exact ⟨a, List.mem_cons_self _ _, by omega, hq⟩
    · cases t with
      | nil =>
        exfalso
        simp only [List.getLast?_singleton, Option.map_some] at h2
        have : a.2 = L := Option.some.inj h2
        omega
      | cons b ts =>
        have hcc := List.chain'_cons.mp h4
        obtain ⟨p, hp, hps⟩ := ih b.1 L q (by simp)
          (by rw [← h2, List.getLast?_cons_cons])
          (fun p hp => h3 p (List.mem_cons_of_mem _ hp)) hcc.2
          (by omega) hq2
        exact ⟨p, List.mem_cons_of_mem _ hp, hps⟩

theorem slice_split (text : List Char) (a b c : Nat) (hab : a ≤ b)
    (hbc : b ≤ c) :
    slice text a c = slice text a b ++ slice text b c := by
  unfold slice
  rw [show c - a = (b - a) + (c - b) by omega]
  rw [List.take_add]
  congr 1
  rw [List.drop_drop]
  rw [show a + (b - a) = b by omega]

end ChunkText

namespace Claims

/-- Claim C1: for non-empty text and a valid configuration
(`0 < max_chars`, `overlap_chars < max_chars`), any span list that
`_iter_chunk_spans` returns (the fuelled embedding returning `some`) starts
at offset 0, ends at the text length, covers `[0, len)` with no gaps, has
strictly increasing start offsets, consecutive spans overlap by at most
`overlap_chars`, the overlap region is a suffix of the earlier span and a
prefix of the later one, and every span is non-empty and within bounds. -/
theorem C1_span_invariants (text : List Char) (maxChars overlapChars : Nat)
    (hM : 0 < maxChars) (hV : overlapChars < maxChars)
    (hlen : 0 < text.length) (fuel : Nat) (spans : List (Nat × Nat))
    (h : ChunkText.iterChunkSpansAux text maxChars overlapChars fuel 0 =
      some spans) :
    spans ≠ [] ∧
    spans.head?.map Prod.fst = some 0 ∧
    spans.getLast?.map Prod.snd = some text.length ∧
    (∀ p ∈ spans, p.1 < p.2 ∧ p.2 ≤ text.length) ∧
    (∀ q, q < text.length → ∃ p ∈ spans, p.1 ≤ q ∧ q < p.2) ∧
    List.Chain' (fun a b =>
      a.1 < b.1 ∧ b.1 ≤ a.2 ∧ a.2 ≤ b.2 ∧ a.2 - b.1 ≤ overlapChars) spans ∧
    List.Chain' (fun a b =>
      (∃ u, ChunkText.slice text a.1 a.2 =
        u ++ ChunkText.slice text b.1 a.2) ∧
      (∃ v, ChunkText.slice text b.1 b.2 =
        ChunkText.slice text b.1 a.2 ++ v)) spans := by
  obtain ⟨hne, hhead1, _, hlast, hbounds, hchain⟩ :=
    ChunkText.aux_invariant text maxChars overlapChars hM hV fuel 0 spans h hlen
  refine ⟨hne, hhead1, hlast, ?_, ?_, hchain, ?_⟩
  · intro p hp
    obtain ⟨-, h2, h3⟩ := hbounds p hp
    exact ⟨h2, h3⟩
  · intro q hq
    exact ChunkText.chain_coverage spans 0 text.length q hhead1 hlast
      (fun p hp => (hbounds p hp).2.1)
      (List.Chain'.imp (fun a b hab => hab.2.1) hchain)
      (Nat.zero_le q) hq
  · refine List.Chain'.imp ?_ hchain
    intro a b hab
    obtain ⟨h1, h2, h3, -⟩ := hab
    constructor
    · exact ⟨ChunkText.slice text a.1 b.1,
        ChunkText.slice_split text a.1 b.1 a.2 (by omega) h2⟩
    · exact ⟨ChunkText.slice text a.2 b.2,
        ChunkText.slice_split text b.1 a.2 b.2 h2 h3⟩

/-- Witness for claim C1: the invariants instantiated at the concrete run
on the five-character text `"ab\ncd"` with `max_chars = 3`,
`overlap_chars = 1`, which yields the spans `(0, 3)` and `(2, 5)`. -/
theorem C1_span_invariants_witness :
    ([(0, 3), (2, 5)] : List (Nat × Nat)) ≠ [] ∧
    ([(0, 3), (2, 5)] : List (Nat × Nat)).head?.map Prod.fst = some 0 ∧
    ([(0, 3), (2, 5)] : List (Nat × Nat)).getLast?.map Prod.snd =
      some ('a' :: 'b' :: '\n' :: 'c' :: 'd' :: []).length ∧
    (∀ p ∈ ([(0, 3), (2, 5)] : List (Nat × Nat)),
      p.1 < p.2 ∧ p.2 ≤ ('a' :: 'b' :: '\n' :: 'c' :: 'd' :: []).length) ∧
    (∀ q, q < ('a' :: 'b' :: '\n' :: 'c' :: 'd' :: []).length →
      ∃ p ∈ ([(0, 3), (2, 5)] : List (Nat × Nat)), p.1 ≤ q ∧ q < p.2) ∧
    List.Chain' (fun a b =>
      a.1 < b.1 ∧ b.1 ≤ a.2 ∧ a.2 ≤ b.2 ∧ a.2 - b.1 ≤ 1)
      ([(0, 3), (2, 5)] : List (Nat × Nat)) ∧
    List.Chain' (fun a b =>
      (∃ u, ChunkText.slice ('a' :: 'b' :: '\n' :: 'c' :: 'd' :: []) a.1 a.2 =
        u ++ ChunkText.slice ('a' :: 'b' :: '\n' :: 'c' :: 'd' :: []) b.1 a.2) ∧
      (∃ v, ChunkText.slice ('a' :: 'b' :: '\n' :: 'c' :: 'd' :: []) b.1 b.2 =
        ChunkText.slice ('a' :: 'b' :: '\n' :: 'c' :: 'd' :: []) b.1 a.2 ++ v))
      ([(0, 3), (2, 5)] : List (Nat × Nat)) :=
  C1_span_invariants ('a' :: 'b' :: '\n' :: 'c' :: 'd' :: []) 3 1
    (by norm_num) (by norm_num) (by norm_num) 10 [(0, 3), (2, 5)] (by rfl)

end Claims

namespace ChunkText

theorem getD_replicate_lt (c d : Char) (n j : Nat) (h : j < n) :
    (List.replicate n c).getD j d = c := by
  rw [List.getD_eq_getElem _ _ (by simpa using h)]
  simp

theorem textC3_getD_nl : textC3.getD nlPosC3 ' ' = '\n' := by
  unfold textC3
  rw [List.getD_append_right _ _ _ _ (by rw [List.length_replicate])]
  rw [List.length_replicate, Nat.sub_self]
  rfl

theorem textC3_getD_lo (j : Nat) (h : j < nlPosC3) :
    textC3.getD j ' ' = 'a' := by
  unfold textC3
  rw [List.getD_append _ _ _ _ (by rw [List.length_replicate]; exact h)]
  exact getD_replicate_lt _ _ _ _ h

theorem textC3_getD_hi (j : Nat) (h1 : nlPosC3 < j)
    (h2 : j < floatWidthC3 + 1) : textC3.getD j ' ' = 'a' := by
  unfold textC3
  rw [List.getD_append_right _ _ _ _ (by rw [List.length_replicate]; omega)]
  rw [List.length_replicate]
  have hj : j - nlPosC3 = (j - nlPosC3 - 1) + 1 := by omega
  rw [hj, List.getD_cons_succ]
  apply getD_replicate_lt
  simp only [floatWidthC3, nlPosC3] at h2 ⊢
  omega

theorem textC3_length : textC3.length = floatWidthC3 + 1 := by
  unfold textC3
  rw [List.length_append, List.length_replicate, List.length_cons,
    List.length_replicate]
  unfold floatWidthC3 nlPosC3
  omega

theorem floatMul06_at_width : floatMul06 floatWidthC3 = nlPosC3 + 1 := by
  set_option maxRecDepth 8000 in decide

theorem exact_floor_at_width : 3 * floatWidthC3 / 5 = nlPosC3 := by
  decide

theorem textC3_rfind :
    rfindNewline textC3 0 floatWidthC3 = some nlPosC3 := by
  rw [rfindNewline_some_iff]
  refine ⟨Nat.zero_le _, ?_, ?_, textC3_getD_nl, ?_⟩
  · unfold floatWidthC3 nlPosC3; omega
  · rw [textC3_length]; unfold floatWidthC3 nlPosC3; omega
  · intro j hj1 hj2 hj3
    rw [textC3_getD_hi j hj1 (by omega)]
    intro hcontra
    exact absurd hcontra (by decide)

end ChunkText

namespace Claims

/-- Claim C3 as amended: `_choose_chunk_end` returns `len text` whenever
`hard_end` reaches the end of the text; otherwise, with
`min_end = s + int((hard_end - s) * 0.6)` computed in binary64 arithmetic
(`floatMul06`; it equals the exact `floor(0.6 * (hard_end - s))` of the
original claim for all window widths encountered in practice, but exceeds
it by one for astronomically large widths, the first at
7505999378950828), the end is `nl + 1` when the last newline `nl` of
`[s, hard_end)` exists and `nl ≥ min_end`, and `hard_end` otherwise. -/
theorem C3_choose_end_binary64 (text : List Char) (s he : Nat) :
    (text.length ≤ he → ChunkText.chooseChunkEnd text s he = text.length) ∧
    (he < text.length →
      ((∃ nl, s ≤ nl ∧ nl < he ∧ text.getD nl ' ' = '\n' ∧
          (∀ j, nl < j → j < he → text.getD j ' ' ≠ '\n') ∧
          s + ChunkText.floatMul06 (he - s) ≤ nl ∧
          ChunkText.chooseChunkEnd text s he = nl + 1) ∨
       (ChunkText.chooseChunkEnd text s he = he ∧
        ∀ p, s + ChunkText.floatMul06 (he - s) ≤ p → p < he →
          text.getD p ' ' ≠ '\n'))) := by
  constructor
  · intro hle
    unfold ChunkText.chooseChunkEnd
    rw [if_pos hle]
  · intro hlt
    unfold ChunkText.chooseChunkEnd
    rw [if_neg (by omega)]
    cases hrf : ChunkText.rfindNewline text s he with
    | none =>
      right
      simp only []
      refine ⟨by trivial, ?_⟩
      intro p hp1 hp2
      exact ChunkText.rfindNewline_none_imp text s he hrf p (by omega) hp2
        (by omega)
    | some nl =>
      obtain ⟨ha, hb, hc, hd, hmax⟩ :=
        (ChunkText.rfindNewline_some_iff text s he nl).mp hrf
      simp only []
      by_cases hsnap : s + ChunkText.floatMul06 (he - s) ≤ nl
      · left
        rw [if_pos hsnap]
        exact ⟨nl, ha, hb, hd,
          fun j hj1 hj2 => hmax j hj1 hj2 (by omega), hsnap, rfl⟩
      · right
        rw [if_neg hsnap]
        refine ⟨rfl, ?_⟩
        intro p hp1 hp2
        by_cases hpn : p ≤ nl
        · exfalso; omega
        · exact hmax p (by omega) hp2 (by omega)

/-- Counterexample for claim C3: at window width 7505999378950828 the
binary64 computation `int((hard_end - s) * 0.6)` used by the source yields
4503599627370497 while the claim's exact `floor(0.6 * (hard_end - s))` is
4503599627370496.  On `textC3`, whose last newline of the window sits
exactly at offset 4503599627370496, the code therefore refuses to snap and
returns `hard_end`, while the claim's formula requires `nl + 1`: the
spec-faithful `chooseChunkEndSpec` disagrees with the source's
`chooseChunkEnd` at this input. -/
theorem C3_counterexample :
    ChunkText.chooseChunkEnd ChunkText.textC3 0 ChunkText.floatWidthC3 =
      ChunkText.floatWidthC3 ∧
    ChunkText.chooseChunkEndSpec ChunkText.textC3 0 ChunkText.floatWidthC3 =
      ChunkText.nlPosC3 + 1 ∧
    ChunkText.floatWidthC3 ≠ ChunkText.nlPosC3 + 1 := by
  have hlen := ChunkText.textC3_length
  refine ⟨?_, ?_, by decide⟩
  · unfold ChunkText.chooseChunkEnd
    rw [if_neg (by omega)]
    rw [ChunkText.textC3_rfind]
    simp only [Nat.zero_add, Nat.sub_zero]
    rw [if_neg (by
      rw [ChunkText.floatMul06_at_width]
      omega)]
  · unfold ChunkText.chooseChunkEndSpec
    rw [if_neg (by omega)]
    rw [ChunkText.textC3_rfind]
    simp only [Nat.zero_add, Nat.sub_zero]
    rw [if_pos (by
      rw [ChunkText.exact_floor_at_width])]

/-- Witness for amended claim C3: the characterisation applied to the
concrete text `"ab\ncd"` with `s = 0`, `hard_end = 3`, where the newline at
offset 2 is at or past `min_end = 0 + int(3 * 0.6) = 1` and the chunk end
snaps to 3. -/
theorem C3_choose_end_binary64_witness :
    (∃ nl, 0 ≤ nl ∧ nl < 3 ∧
        ('a' :: 'b' :: '\n' :: 'c' :: 'd' :: []).getD nl ' ' = '\n' ∧
        (∀ j, nl < j → j < 3 →
          ('a' :: 'b' :: '\n' :: 'c' :: 'd' :: []).getD j ' ' ≠ '\n') ∧
        0 + ChunkText.floatMul06 (3 - 0) ≤ nl ∧
        ChunkText.chooseChunkEnd ('a' :: 'b' :: '\n' :: 'c' :: 'd' :: []) 0 3 =
          nl + 1) ∨
    (ChunkText.chooseChunkEnd ('a' :: 'b' :: '\n' :: 'c' :: 'd' :: []) 0 3 = 3 ∧
     ∀ p, 0 + ChunkText.floatMul06 (3 - 0) ≤ p → p < 3 →
       ('a' :: 'b' :: '\n' :: 'c' :: 'd' :: []).getD p ' ' ≠ '\n') :=
  (C3_choose_end_binary64 ('a' :: 'b' :: '\n' :: 'c' :: 'd' :: []) 0 3).2
    (by norm_num)

end Claims
